import Mathlib

/-!
# Lab 8: dense matrices and Markov-chain helpers

A shallow embedding of `matrix.c` and `markov.c`.

* The code is generic in the type `α` of the entries and uses only the
  operations the C code applies to a `double`: `0.0`, `1.0`, `+`, `-`, `*`,
  unary minus, `<`, `>` and `fabs`. Two kinds of entries are considered:
  the doubles themselves (`F64`: IEEE 754 binary64 with rounding to nearest,
  NaN and the infinities), and exact numbers (a semiring, or a linearly
  ordered ring for the Markov check) for the statements that take the entries
  as exact numbers.
* A `size_t` is a natural number; where the code computes in `size_t`
  (`index_of`, the element count handed to `calloc`) the result is reduced
  modulo `2 ^ 64`. An `unsigned int` parameter is reduced modulo `2 ^ 32`.
* A pointer that the code tests against `NULL` is an `Option`.
* `malloc` and `calloc` are taken to succeed.
* The backing buffer is a list. A read outside the buffer yields `0` and a
  write outside it is dropped. In C both are undefined; the theorems that
  confirm a behaviour rely on in-bounds accesses only, and the theorems about
  a product too large for `size_t` state that the offset lies outside the
  buffer.
-/

/-- Mathematical matrices of Mathlib, under a name that does not clash with the
C struct `Matrix` embedded below. -/
abbrev MathMatrix (m n α : Type) : Type := Matrix m n α

namespace Lab8

/-- Number of values of the C type `size_t` (64-bit target). -/
def SIZE_MODULUS : Nat := 2 ^ 64

/-- Number of values of the C type `unsigned int`. -/
def UINT_MODULUS : Nat := 2 ^ 32

/-- The struct `Matrix` of matrix.h (lines 27-31): `rows`, `cols` and the
backing array `data`, row-major. -/
structure Matrix (α : Type) where
  rows : Nat
  cols : Nat
  data : List α
deriving DecidableEq, Repr

/-- A C loop `for (size_t i = 0; i < n; ++i) body`, as a state transformer:
the body runs for `i = 0, 1, ..., n - 1` in this order. -/
def for_loop {σ : Type} : Nat → (Nat → σ → σ) → σ → σ
  | 0, _, s => s
  | n + 1, body, s => body n (for_loop n body s)

section MatrixCore

variable {α : Type}

/-- Function `index_of` of matrix.c (lines 33-36): `i * m->cols + j`, computed
in `size_t`. -/
def index_of (m : Matrix α) (i j : Nat) : Nat :=
  (i * m.cols + j) % SIZE_MODULUS

/-- Function `matrix_create` of matrix.c (lines 43-65): dimensions are stored
as given, the buffer holds `rows * cols` (a `size_t` product) zeros. -/
def matrix_create [Zero α] (rows cols : Nat) : Option (Matrix α) :=
  some (Matrix.mk rows cols (List.replicate ((rows * cols) % SIZE_MODULUS) 0))

/-- Function `matrix_get` of matrix.c (lines 89-92). -/
def matrix_get [Zero α] (m : Matrix α) (i j : Nat) : α :=
  m.data.getD (index_of m i j) 0

/-- Function `matrix_set` of matrix.c (lines 99-102). -/
def matrix_set (m : Matrix α) (i j : Nat) (value : α) : Matrix α :=
  Matrix.mk m.rows m.cols (m.data.set (index_of m i j) value)

/-- Function `matrix_multiply` of matrix.c (lines 109-143). -/
def matrix_multiply [Zero α] [Add α] [Mul α] (A B : Option (Matrix α)) : Option (Matrix α) :=
  match A, B with
  | some A, some B =>
    if A.cols ≠ B.rows then none
    else
      match (matrix_create A.rows B.cols : Option (Matrix α)) with
      | none => none
      | some C =>
        some (for_loop A.rows (fun i C =>
          for_loop B.cols (fun j C =>
            let sum := for_loop A.cols (fun k sum =>
              let a := matrix_get A i k
              let b := matrix_get B k j
              sum + a * b) (0 : α)
            matrix_set C i j sum) C) C)
  | _, _ => none

/-- Function `matrix_copy` of markov.c (lines 35-51). -/
def matrix_copy [Zero α] (src : Matrix α) : Option (Matrix α) :=
  match (matrix_create src.rows src.cols : Option (Matrix α)) with
  | none => none
  | some dst =>
    some (for_loop src.rows (fun i dst =>
      for_loop src.cols (fun j dst =>
        let value := matrix_get src i j
        matrix_set dst i j value) dst) dst)

/-- The exponentiation-by-squaring loop of `markov_power`, markov.c
(lines 139-169), on the state `(result, base, exp)`. -/
def power_loop [Zero α] [Add α] [Mul α] (result base : Matrix α) (exp : Nat) : Option (Matrix α) :=
  if _hpos : exp > 0 then
    match (if exp &&& 1 ≠ 0 then matrix_multiply (some result) (some base)
           else some result) with
    | none => none
    | some result =>
      if exp >>> 1 > 0 then
        match matrix_multiply (some base) (some base) with
        | none => none
        | some tmp => power_loop result tmp (exp >>> 1)
      else power_loop result base (exp >>> 1)
  else some result
termination_by exp
decreasing_by
  all_goals simp_wf
  all_goals
    rw [Nat.shiftRight_eq_div_pow]
    omega

/-- The identity initialisation in `markov_power`, markov.c (lines 115-126):
a fresh `rows x cols` matrix with `1.0` on the diagonal and `0.0` elsewhere. -/
def identity_init [Zero α] [One α] (rows cols : Nat) : Option (Matrix α) :=
  match (matrix_create rows cols : Option (Matrix α)) with
  | none => none
  | some result =>
    some (for_loop rows (fun i result =>
      for_loop cols (fun j result =>
        let value : α := if i = j then 1 else 0
        matrix_set result i j value) result) result)

/-- Function `markov_power` of markov.c (lines 103-176). The parameter `k`
has type `unsigned int`. -/
def markov_power [Zero α] [One α] [Add α] [Mul α] (M : Option (Matrix α)) (k : Nat) : Option (Matrix α) :=
  let k := k % UINT_MODULUS
  match M with
  | none => none
  | some M =>
    if k = 0 then none
    else if M.rows ≠ M.cols then none
    else
      match (identity_init M.rows M.cols : Option (Matrix α)) with
      | none => none
      | some result =>
        match matrix_copy M with
        | none => none
        | some base => power_loop result base k

end MatrixCore

/-- The function `fabs` of math.h on the type of the entries. -/
class Fabs (α : Type) where
  fabs : α → α

export Fabs (fabs)

/-- On exact numbers `fabs` is the absolute value. -/
instance instFabsOfLinearOrderedRing {α : Type} [LinearOrderedRing α] : Fabs α :=
  ⟨fun x => |x|⟩

section MarkovCheck

variable {α : Type}

/-- The inner loop of `markov_is_chain`, markov.c (lines 67-77), from column
`j` with `n` columns left: `none` when the function returns `0` from inside
the loop, otherwise the final `row_sum`. -/
def chain_row_loop [Zero α] [Add α] [Neg α] [LT α] [DecidableRel ((· < ·) : α → α → Prop)]
    (M : Matrix α) (eps : α) (i : Nat) : Nat → Nat → α → Option α
  | 0, _, row_sum => some row_sum
  | n + 1, j, row_sum =>
    let val := matrix_get M i j
    if val < -eps then none
    else chain_row_loop M eps i n (j + 1) (row_sum + val)

/-- The outer loop of `markov_is_chain`, markov.c (lines 64-85), from row `i`
with `n` rows left. -/
def chain_loop [Zero α] [One α] [Add α] [Sub α] [Neg α] [LT α]
    [DecidableRel ((· < ·) : α → α → Prop)] [Fabs α] (M : Matrix α) (eps : α) :
    Nat → Nat → Int
  | 0, _ => 1
  | n + 1, i =>
    match chain_row_loop M eps i M.cols 0 0 with
    | none => 0
    | some row_sum =>
      if fabs (row_sum - 1) > eps then 0
      else chain_loop M eps n (i + 1)

/-- Function `markov_is_chain` of markov.c (lines 58-86); the C `int` result
is `1` or `0`. -/
def markov_is_chain [Zero α] [One α] [Add α] [Sub α] [Neg α] [LT α]
    [DecidableRel ((· < ·) : α → α → Prop)] [Fabs α] (M : Option (Matrix α)) (eps : α) :
    Int :=
  match M with
  | none => 0
  | some M => chain_loop M eps M.rows 0

end MarkovCheck

section Counting

variable {α : Type}

end Counting

section Driver

/-- The table `a_vals` of `demo_basic_multiply`, main.c. -/
def a_vals : List (List ℚ) := [[1, 2, 3], [4, 5, 6]]

/-- The table `b_vals` of `demo_basic_multiply`, main.c. -/
def b_vals : List (List ℚ) := [[7, 8], [9, 10], [11, 12]]

/-- The C read `vals[i][j]` of a two-dimensional table. -/
def table_at (vals : List (List ℚ)) (i j : Nat) : ℚ :=
  (vals.getD i []).getD j 0

/-- Construction of `A` in `demo_basic_multiply`, main.c: `matrix_create(2, 3)`
followed by the loops of `matrix_set(A, i, j, a_vals[i][j])`. -/
def demo_build_A : Option (Matrix ℚ) :=
  match (matrix_create 2 3 : Option (Matrix ℚ)) with
  | none => none
  | some A =>
    some (for_loop 2 (fun i A =>
      for_loop 3 (fun j A => matrix_set A i j (table_at a_vals i j)) A) A)

/-- Construction of `B` in `demo_basic_multiply`, main.c: `matrix_create(3, 2)`
followed by the loops of `matrix_set(B, i, j, b_vals[i][j])`. -/
def demo_build_B : Option (Matrix ℚ) :=
  match (matrix_create 3 2 : Option (Matrix ℚ)) with
  | none => none
  | some B =>
    some (for_loop 3 (fun i B =>
      for_loop 2 (fun j B => matrix_set B i j (table_at b_vals i j)) B) B)

/-- The matrix `C` computed by `demo_basic_multiply`, main.c:
`matrix_multiply(A, B)` on the two matrices built before. -/
def demo_basic_multiply : Option (Matrix ℚ) :=
  matrix_multiply demo_build_A demo_build_B

/-- Construction of `M` in `demo_markov`, main.c: `matrix_create(2, 2)`
followed by four calls of `matrix_set` with `0.9`, `0.1`, `0.5`, `0.5`. -/
def demo_build_M : Option (Matrix ℚ) :=
  match (matrix_create 2 2 : Option (Matrix ℚ)) with
  | none => none
  | some M =>
    some (matrix_set (matrix_set (matrix_set (matrix_set M 0 0 (9 / 10)) 0 1 (1 / 10))
      1 0 (1 / 2)) 1 1 (1 / 2))

end Driver

/-! ## The C type `double`

The arithmetic of IEEE 754 binary64 in the default rounding mode (to nearest,
ties to even), every operation rounded on its own (no fused multiply-add, no
extended precision), as a compiler for x86-64 emits it. A finite value is a pair `(m, e)` standing for
`m * 2 ^ e`; the results of the operations are in lowest terms (`m` odd, or
`m = e = 0`), so that two results are the same value exactly when they are
equal. The two zeros are identified: the code never divides and compares only
with `<` and `>`, which do not see the sign of a zero. -/

/-- The values of the C type `double`: NaN, the two infinities (`neg` for
the negative one) and the finite numbers `m * 2 ^ e`. -/
inductive F64 where
  | nan : F64
  | inf (neg : Bool) : F64
  | fin (m e : Int) : F64
deriving DecidableEq, Repr

namespace F64

/-- Number of binary digits of `n`, by halving at most `fuel` times. -/
def bitlen_aux : Nat → Nat → Nat
  | 0, _ => 0
  | fuel + 1, n => if n = 0 then 0 else bitlen_aux fuel (n / 2) + 1

/-- Number of binary digits of `n` (`0` for `0`). -/
def bitlen (n : Nat) : Nat := bitlen_aux n n

/-- The finite value `m * 2 ^ e`, `m ≠ 0`, in lowest terms. -/
def strip_aux : Nat → Int → Int → F64
  | 0, m, e => fin m e
  | fuel + 1, m, e => if m % 2 = 0 then strip_aux fuel (m / 2) (e + 1) else fin m e

/-- The double of magnitude `k * 2 ^ q` and sign `neg`, once `k` has at most
53 digits: zero, an infinity from `2 ^ 1024` on, else the value in lowest
terms. -/
def pack (neg : Bool) (k : Nat) (q : Int) : F64 :=
  if k = 0 then fin 0 0
  else if (bitlen k : Int) + q > 1024 then inf neg
  else strip_aux k (if neg then -(k : Int) else (k : Int)) q

/-- Rounding of the exact number `m * 2 ^ e` to a double: to 53 significant
digits, or to a multiple of `2 ^ (-1074)` in the subnormal range, the nearest
one, ties to the even one. -/
def round_fin (m e : Int) : F64 :=
  let a := m.natAbs
  let q : Int := max ((bitlen a : Int) - 1 + e - 52) (-1074)
  if e ≥ q then pack (decide (m < 0)) a e
  else
    let s := (q - e).toNat
    let k0 := a / 2 ^ s
    let r := a % 2 ^ s
    let half := 2 ^ (s - 1)
    let k := if r > half then k0 + 1
      else if r < half then k0
      else if k0 % 2 = 0 then k0 else k0 + 1
    pack (decide (m < 0)) k q

/-- The exact sum `m1 * 2 ^ e1 + m2 * 2 ^ e2`, as a pair. -/
def exact_add (m1 e1 m2 e2 : Int) : Int × Int :=
  if m2 = 0 then (m1, e1)
  else if m1 = 0 then (m2, e2)
  else (m1 * 2 ^ (e1 - min e1 e2).toNat + m2 * 2 ^ (e2 - min e1 e2).toNat, min e1 e2)

/-- The C operation `x + y` on doubles. -/
def add : F64 → F64 → F64
  | nan, _ => nan
  | _, nan => nan
  | inf s, inf t => if s = t then inf s else nan
  | inf s, fin _ _ => inf s
  | fin _ _, inf t => inf t
  | fin m1 e1, fin m2 e2 => round_fin (exact_add m1 e1 m2 e2).1 (exact_add m1 e1 m2 e2).2

/-- The C operation `-x` on doubles. -/
def neg : F64 → F64
  | nan => nan
  | inf s => inf (!s)
  | fin m e => fin (-m) e

/-- The C operation `x * y` on doubles. -/
def mul : F64 → F64 → F64
  | nan, _ => nan
  | _, nan => nan
  | inf s, inf t => inf (xor s t)
  | inf s, fin m _ => if m = 0 then nan else inf (xor s (decide (m < 0)))
  | fin m _, inf t => if m = 0 then nan else inf (xor (decide (m < 0)) t)
  | fin m1 e1, fin m2 e2 => round_fin (m1 * m2) (e1 + e2)

/-- The function `fabs` of math.h on doubles. -/
def fabs : F64 → F64
  | nan => nan
  | inf _ => inf false
  | fin m e => fin |m| e

/-- The C comparison `x < y` on doubles: false as soon as one side is NaN. -/
def lt : F64 → F64 → Bool
  | nan, _ => false
  | _, nan => false
  | inf s, inf t => s && !t
  | inf s, fin _ _ => s
  | fin _ _, inf t => !t
  | fin m1 e1, fin m2 e2 =>
    decide (m1 * 2 ^ (e1 - min e1 e2).toNat < m2 * 2 ^ (e2 - min e1 e2).toNat)

/-- The C comparison `x <= y` on doubles: false as soon as one side is NaN. -/
def le : F64 → F64 → Bool
  | nan, _ => false
  | _, nan => false
  | inf s, inf t => s || !t
  | inf s, fin _ _ => s
  | fin _ _, inf t => !t
  | fin m1 e1, fin m2 e2 =>
    decide (m1 * 2 ^ (e1 - min e1 e2).toNat ≤ m2 * 2 ^ (e2 - min e1 e2).toNat)

/-- The real number a finite double stands for (`0` for NaN and the
infinities, which stand for none). -/
def toRat : F64 → ℚ
  | fin m e => (m : ℚ) * (2 : ℚ) ^ e
  | _ => 0

/-- The value `x` is a finite double: a finite number that rounding leaves
unchanged. -/
def IsFiniteDouble : F64 → Prop
  | fin m e => round_fin m e = fin m e
  | _ => False

instance instDecidableIsFiniteDouble (x : F64) : Decidable (IsFiniteDouble x) := by
  cases x <;> unfold IsFiniteDouble <;> infer_instance

end F64

instance instZeroF64 : Zero F64 := ⟨F64.fin 0 0⟩

instance instOneF64 : One F64 := ⟨F64.fin 1 0⟩

instance instAddF64 : Add F64 := ⟨F64.add⟩

instance instNegF64 : Neg F64 := ⟨F64.neg⟩

instance instSubF64 : Sub F64 := ⟨fun x y => F64.add x (F64.neg y)⟩

instance instMulF64 : Mul F64 := ⟨F64.mul⟩

instance instLTF64 : LT F64 := ⟨fun x y => F64.lt x y = true⟩

instance instLEF64 : LE F64 := ⟨fun x y => F64.le x y = true⟩

instance instDecidableLTF64 : DecidableRel ((· < ·) : F64 → F64 → Prop) :=
  fun x y => inferInstanceAs (Decidable (F64.lt x y = true))

instance instDecidableLEF64 : DecidableRel ((· ≤ ·) : F64 → F64 → Prop) :=
  fun x y => inferInstanceAs (Decidable (F64.le x y = true))

instance instFabsF64 : Fabs F64 := ⟨F64.fabs⟩

/-! ## Vocabulary of the specification -/

section Vocabulary

variable {α : Type}

/-- The matrix `C` is an `r x c` matrix whose buffer has exactly `r * c`
elements, a count that fits in `size_t`. -/
def Fits (r c : Nat) (C : Matrix α) : Prop :=
  C.rows = r ∧ C.cols = c ∧ C.data.length = r * c ∧ r * c < SIZE_MODULUS

/-- Well-formed matrix value: the invariant of matrix.h (`data` points to
`rows * cols` doubles), with all `size_t` quantities in range. -/
def Matrix.WF (M : Matrix α) : Prop :=
  M.rows < SIZE_MODULUS ∧ M.cols < SIZE_MODULUS ∧
    M.data.length = M.rows * M.cols ∧ M.rows * M.cols < SIZE_MODULUS

/-- The entries of a C matrix, read through `matrix_get`, as a mathematical
`r x c` matrix. -/
def toMat [Zero α] (r c : Nat) (M : Matrix α) : MathMatrix (Fin r) (Fin c) α :=
  fun i j => matrix_get M i.val j.val

/-- The matrix `I` is the identity matrix of size `n`. -/
def IsIdentity [Zero α] [One α] (n : Nat) (I : Matrix α) : Prop :=
  I.rows = n ∧ I.cols = n ∧
    ∀ i, i < n → ∀ j, j < n → matrix_get I i j = if i = j then 1 else 0

instance instDecidableFits (r c : Nat) (C : Matrix α) : Decidable (Fits r c C) := by
  unfold Fits; infer_instance

instance instDecidableWF (M : Matrix α) : Decidable M.WF := by
  unfold Matrix.WF; infer_instance

instance instDecidableIsIdentity [Zero α] [One α] [DecidableEq α] (n : Nat) (I : Matrix α) :
    Decidable (IsIdentity n I) := by
  unfold IsIdentity; infer_instance

/-- The `k`-fold product `X * X * ... * X` of a square matrix, by the
recursion `X^1 = X`, `X^(k+1) = X^k * X` (and the empty product for `k = 0`). -/
def kfold_product [Semiring α] {n : Nat} (X : MathMatrix (Fin n) (Fin n) α) :
    Nat → MathMatrix (Fin n) (Fin n) α
  | 0 => 1
  | 1 => X
  | k + 2 => kfold_product X (k + 1) * X

/-- The matrix `A = [[1,2,3],[4,5,6]]` of `demo_basic_multiply` (main.c). -/
def demoA : Matrix ℚ := Matrix.mk 2 3 [1, 2, 3, 4, 5, 6]

/-- The matrix `B = [[7,8],[9,10],[11,12]]` of `demo_basic_multiply` (main.c). -/
def demoB : Matrix ℚ := Matrix.mk 3 2 [7, 8, 9, 10, 11, 12]

/-- The transition matrix `M = [[0.9,0.1],[0.5,0.5]]` of `demo_markov` (main.c). -/
def demoM : Matrix ℚ := Matrix.mk 2 2 [9 / 10, 1 / 10, 1 / 2, 1 / 2]

/-- The `1 x 1` matrix `[[1]]` over the integers. -/
def unit1 : Matrix ℤ := Matrix.mk 1 1 [1]

/-- Row `i` of `M` passes the Markov check with tolerance `eps`: every entry
is at least `-eps` and the row sum is within `eps` of `1`. -/
def RowOK [LinearOrderedRing α] (M : Matrix α) (eps : α) (i : Nat) : Prop :=
  (∀ j, j < M.cols → -eps ≤ matrix_get M i j) ∧
    |(∑ j ∈ Finset.range M.cols, matrix_get M i j) - 1| ≤ eps

/-- Every entry of `M` is non-negative. -/
def NonNegative [LinearOrderedRing α] (M : Matrix α) : Prop :=
  ∀ i, i < M.rows → ∀ j, j < M.cols → 0 ≤ matrix_get M i j

/-- Every row of `M` sums to exactly `1`. -/
def RowStochastic [LinearOrderedRing α] (M : Matrix α) : Prop :=
  ∀ i, i < M.rows → ∑ j ∈ Finset.range M.cols, matrix_get M i j = 1

/-- The product `C = [[58,64],[139,154]]` expected by `demo_basic_multiply`. -/
def demoC : Matrix ℚ := Matrix.mk 2 2 [58, 64, 139, 154]

/-- The matrix `[[0.86,0.14],[0.70,0.30]]`, in exact decimals. -/
def demoM2 : Matrix ℚ := Matrix.mk 2 2 [86 / 100, 14 / 100, 70 / 100, 30 / 100]

/-- The matrix `[[0.844,0.156],[0.78,0.22]]`, in exact decimals. -/
def demoM3 : Matrix ℚ := Matrix.mk 2 2 [844 / 1000, 156 / 1000, 78 / 100, 22 / 100]

/-- A `2^32 x 0` matrix: no element, well-formed. -/
def tallEmpty : Matrix ℚ := Matrix.mk 4294967296 0 []

/-- A `0 x 2^32` matrix: no element, well-formed. -/
def wideEmpty : Matrix ℚ := Matrix.mk 0 4294967296 []

/-- A mathematical matrix is non-negative with every row summing to `1`. -/
def MStoch [LinearOrderedRing α] {m n : Nat} (X : MathMatrix (Fin m) (Fin n) α) : Prop :=
  (∀ i j, 0 ≤ X i j) ∧ ∀ i, ∑ j, X i j = 1

/-- The sum of row `i` as the code accumulates it: from `0`, left to right,
in the arithmetic of the entries. -/
def row_acc [Zero α] [Add α] (M : Matrix α) (i : Nat) : α :=
  (List.range M.cols).foldl (fun row_sum j => row_sum + matrix_get M i j) 0

/-- Row `i` of `M` passes the two tests of `markov_is_chain` as the code
performs them: no entry is `< -eps`, and the accumulated row sum `s` does not
satisfy `fabs(s - 1) > eps`. -/
def RowPasses [Zero α] [One α] [Add α] [Sub α] [Neg α] [LT α] [Fabs α]
    (M : Matrix α) (eps : α) (i : Nat) : Prop :=
  (∀ j, j < M.cols → ¬ matrix_get M i j < -eps) ∧ ¬ fabs (row_acc M i - 1) > eps

/-- The C constant `sizeof(double)`. -/
def SIZEOF_DOUBLE : Nat := 8

/-- The C constant `PTRDIFF_MAX` of a 64-bit target: `calloc` grants no
request of more bytes, and none whose byte count overflows `size_t`. -/
def PTRDIFF_MAX : Nat := 2 ^ 63 - 1

/-- Every entry of the matrix of doubles `A` is finite: neither NaN nor an
infinity. -/
def FiniteEntries (A : Matrix F64) : Prop :=
  ∀ i, i < A.rows → ∀ j, j < A.cols → F64.IsFiniteDouble (matrix_get A i j)

instance instDecidableFiniteEntries (A : Matrix F64) : Decidable (FiniteEntries A) := by
  unfold FiniteEntries; infer_instance

/-- The double nearest to `0.9`. -/
def dbl_0_9 : F64 := F64.fin 8106479329266893 (-53)

/-- The double nearest to `0.1`. -/
def dbl_0_1 : F64 := F64.fin 3602879701896397 (-55)

/-- The double `0.5`. -/
def dbl_0_5 : F64 := F64.fin 1 (-1)

/-- The double nearest to `1e-9`, the tolerance of `demo_markov`. -/
def dbl_eps : F64 := F64.fin 4835703278458517 (-82)

/-- The transition matrix of `demo_markov` as the program holds it, in
doubles. -/
def dblM : Matrix F64 := Matrix.mk 2 2 [dbl_0_9, dbl_0_1, dbl_0_5, dbl_0_5]

/-- The matrix of doubles `[[inf, 1], [2, 3]]`. -/
def dblInfA : Matrix F64 := Matrix.mk 2 2 [F64.inf false, 1, F64.fin 1 1, F64.fin 3 0]

/-- The `2 x 2` identity matrix of doubles. -/
def dblI2 : Matrix F64 := Matrix.mk 2 2 [1, 0, 0, 1]

/-- The `1 x 1` matrix of doubles `[[0.1]]`. -/
def dblTenth : Matrix F64 := Matrix.mk 1 1 [dbl_0_1]

/-- The `1 x 2` matrix of doubles `[[NaN, 0]]`. -/
def dblNaNRow : Matrix F64 := Matrix.mk 1 2 [F64.nan, 0]

/-- The `1 x 3` matrix of doubles `[[1, 2^-53, 2^-53]]`. -/
def dblTinyRow : Matrix F64 := Matrix.mk 1 3 [1, F64.fin 1 (-53), F64.fin 1 (-53)]

/-- The square matrix of doubles whose four rows are
`[1 - 2^-53, 3 * 2^-56, 3 * 2^-56, 2^-55]`. -/
def dblStoch4 : Matrix F64 := Matrix.mk 4 4
  [F64.fin 9007199254740991 (-53), F64.fin 3 (-56), F64.fin 3 (-56), F64.fin 1 (-55),
   F64.fin 9007199254740991 (-53), F64.fin 3 (-56), F64.fin 3 (-56), F64.fin 1 (-55),
   F64.fin 9007199254740991 (-53), F64.fin 3 (-56), F64.fin 3 (-56), F64.fin 1 (-55),
   F64.fin 9007199254740991 (-53), F64.fin 3 (-56), F64.fin 3 (-56), F64.fin 1 (-55)]

/-- The `1 x 1` matrix of doubles `[[1]]`. -/
def dblOne : Matrix F64 := Matrix.mk 1 1 [1]

/-- The double `2^-60`. -/
def dbl_tiny : F64 := F64.fin 1 (-60)

/-- A `3 x 0` matrix of doubles. -/
def dblNoCols : Matrix F64 := Matrix.mk 3 0 []

/-- The `2^32 x 1` column of ones. -/
def bigCol : Matrix ℚ := Matrix.mk 4294967296 1 (List.replicate 4294967296 1)

/-- The `1 x 2^32` row of ones. -/
def bigRow : Matrix ℚ := Matrix.mk 1 4294967296 (List.replicate 4294967296 1)

/-- The `1 x 2^32` row `(1, 0, ..., 0)`. -/
def unitRow : Matrix ℚ := Matrix.mk 1 4294967296 (1 :: List.replicate 4294967295 0)

/-- A `0 x 3` matrix of doubles. -/
def dblNoRows : Matrix F64 := Matrix.mk 0 3 []

/-- The product `[[inf, NaN], [2, 3]]` the code returns for `dblInfA * I`. -/
def dblInfRight : Matrix F64 :=
  Matrix.mk 2 2 [F64.inf false, F64.nan, F64.fin 1 1, F64.fin 3 0]

/-- The product `[[inf, 1], [NaN, 3]]` the code returns for `I * dblInfA`. -/
def dblInfLeft : Matrix F64 :=
  Matrix.mk 2 2 [F64.inf false, 1, F64.nan, F64.fin 3 0]

/-- The square of `dblM` as the code computes it, every product and every
partial sum rounded. -/
def dblM2 : Matrix F64 := Matrix.mk 2 2
  [F64.fin 3873095679538627 (-52), F64.fin 1261007895663739 (-53),
   F64.fin 3152519739159347 (-52), F64.fin 5404319552844595 (-54)]

/-- The `1 x 1` product `[[0.1]] * [[0.1]]` as the code computes it. -/
def dblTenthSq : Matrix F64 := Matrix.mk 1 1 [F64.fin 1441151880758559 (-57)]

/-- The third power of `dblM` as `markov_power` computes it. -/
def dblM3 : Matrix F64 := Matrix.mk 2 2
  [F64.fin 3801038085500699 (-52), F64.fin 1405123083739595 (-53),
   F64.fin 3512807709348987 (-52), F64.fin 7926335344172073 (-55)]

/-- The product of the second and the first power of `dblM` as the code
computes it: the last entry is one unit in the last place below that of
`dblM3`. -/
def dblM2M1 : Matrix F64 := Matrix.mk 2 2
  [F64.fin 3801038085500699 (-52), F64.fin 1405123083739595 (-53),
   F64.fin 3512807709348987 (-52), F64.fin 990791918021509 (-52)]

end Vocabulary

/-! ## Basic facts about loops, indices and element access -/

section Basics

variable {α : Type}

theorem for_loop_zero {σ : Type} (body : Nat → σ → σ) (s : σ) :
    for_loop 0 body s = s := rfl

theorem for_loop_succ {σ : Type} (n : Nat) (body : Nat → σ → σ) (s : σ) :
    for_loop (n + 1) body s = body n (for_loop n body s) := rfl

/-- A counted loop is a left fold over the indices `0, ..., n - 1`. -/
theorem for_loop_eq_foldl {σ : Type} (body : Nat → σ → σ) (n : Nat) (s : σ) :
    for_loop n body s = (List.range n).foldl (fun s k => body k s) s := by
  induction n with
  | zero => rfl
  | succ n ih =>
    rw [for_loop_succ, ih, List.range_succ, List.foldl_append]
    rfl

/-- The accumulation loop of a dot product is a finite sum. -/
theorem for_loop_sum [AddCommMonoid α] (g : Nat → α) (n : Nat) :
    for_loop n (fun k s => s + g k) (0 : α) = ∑ k ∈ Finset.range n, g k := by
  induction n with
  | zero => simp [for_loop]
  | succ n ih => rw [for_loop_succ, ih, Finset.sum_range_succ]

/-- A row-major offset of an in-bounds position lies inside the buffer. -/
theorem flat_lt {r c i j : Nat} (hrow : i < r) (hcol : j < c) : i * c + j < r * c := by
  have hnext : (i + 1) * c ≤ r * c := Nat.mul_le_mul_right c hrow
  rw [Nat.add_mul, Nat.one_mul] at hnext
  omega

theorem flat_inj {c i j i' j' : Nat} (hj : j < c) (hj' : j' < c)
    (h : i * c + j = i' * c + j') : i = i' ∧ j = j' := by
  have hc : 0 < c := by omega
  have d1 : (i * c + j) / c = i := by
    rw [Nat.add_comm, Nat.add_mul_div_right _ _ hc, Nat.div_eq_of_lt hj, Nat.zero_add]
  have d2 : (i' * c + j') / c = i' := by
    rw [Nat.add_comm, Nat.add_mul_div_right _ _ hc, Nat.div_eq_of_lt hj', Nat.zero_add]
  have hii : i = i' := by rw [← d1, ← d2, h]
  subst hii
  exact ⟨rfl, by omega⟩

theorem Matrix.WF.fits {M : Matrix α} (h : M.WF) : Fits M.rows M.cols M :=
  ⟨rfl, rfl, h.2.2.1, h.2.2.2⟩

theorem index_of_eq (m : Matrix α) {i j : Nat} (h : i * m.cols + j < SIZE_MODULUS) :
    index_of m i j = i * m.cols + j := Nat.mod_eq_of_lt h

theorem Fits.index_of {r c : Nat} {C : Matrix α} (hC : Fits r c C) {i j : Nat}
    (hi : i < r) (hj : j < c) : Lab8.index_of C i j = i * c + j := by
  obtain ⟨_, hc, _, hlt⟩ := hC
  rw [index_of_eq, hc]
  rw [hc]
  exact lt_trans (flat_lt hi hj) hlt

theorem Fits.index_lt {r c : Nat} {C : Matrix α} (hC : Fits r c C) {i j : Nat}
    (hi : i < r) (hj : j < c) : Lab8.index_of C i j < C.data.length := by
  rw [hC.index_of hi hj, hC.2.2.1]
  exact flat_lt hi hj

theorem matrix_create_fits (α : Type) [Zero α] {r c : Nat} (h : r * c < SIZE_MODULUS) :
    ∃ C : Matrix α, matrix_create r c = some C ∧ Fits r c C ∧
      ∀ i j, matrix_get C i j = 0 := by
  refine ⟨_, rfl, ⟨rfl, rfl, ?_, h⟩, ?_⟩
  · simp [Nat.mod_eq_of_lt h]
  · intro i j
    simp only [matrix_get, List.getD_eq_getElem?_getD]
    rw [List.getElem?_replicate]
    split <;> rfl

theorem matrix_set_fits {r c : Nat} {C : Matrix α} (hC : Fits r c C) (i j : Nat) (v : α) :
    Fits r c (matrix_set C i j v) := by
  obtain ⟨h1, h2, h3, h4⟩ := hC
  exact ⟨h1, h2, by simpa [matrix_set] using h3, h4⟩

theorem get_set_same [Zero α] (C : Matrix α) (i j : Nat) (v : α)
    (h : index_of C i j < C.data.length) :
    matrix_get (matrix_set C i j v) i j = v := by
  simp [matrix_get, matrix_set, index_of, List.getD_eq_getElem?_getD] at h ⊢
  simp [List.getElem?_set, h]

theorem get_set_other [Zero α] (C : Matrix α) (i j : Nat) (v : α) (i' j' : Nat)
    (h : index_of C i j ≠ index_of C i' j') :
    matrix_get (matrix_set C i j v) i' j' = matrix_get C i' j' := by
  simp [matrix_get, matrix_set, index_of, List.getD_eq_getElem?_getD] at h ⊢
  simp [List.getElem?_set, h]

end Basics

/-! ## The nested fill loops shared by multiply, copy and identity -/

section Fill

variable {α : Type}

/-- One pass of the inner loop over the columns `0 .. n-1` of row `i`. -/
theorem fill_row_spec [Zero α] (f : Nat → α) {r c : Nat} (i : Nat) (hi : i < r)
    (C : Matrix α) (hC : Fits r c C) (n : Nat) (hn : n ≤ c) :
    Fits r c (for_loop n (fun j C => matrix_set C i j (f j)) C) ∧
      ∀ i' j', i' < r → j' < c →
        matrix_get (for_loop n (fun j C => matrix_set C i j (f j)) C) i' j' =
          if i' = i ∧ j' < n then f j' else matrix_get C i' j' := by
  induction n with
  | zero => exact ⟨hC, fun i' j' _ _ => by simp [for_loop]⟩
  | succ n ih =>
    obtain ⟨hF, hget⟩ := ih (by omega)
    refine ⟨matrix_set_fits hF _ _ _, ?_⟩
    intro i' j' hi' hj'
    rw [for_loop_succ]
    by_cases hsame : i' = i ∧ j' = n
    · obtain ⟨rfl, rfl⟩ := hsame
      rw [get_set_same _ _ _ _ (hF.index_lt hi hj')]
      simp
    · have hne : index_of (for_loop n (fun j C => matrix_set C i j (f j)) C) i n ≠
          index_of (for_loop n (fun j C => matrix_set C i j (f j)) C) i' j' := by
        rw [hF.index_of hi (by omega), hF.index_of hi' hj']
        intro heq
        obtain ⟨h1, h2⟩ := flat_inj (by omega) hj' heq
        exact hsame ⟨h1.symm, h2.symm⟩
      rw [get_set_other _ _ _ _ _ _ hne, hget i' j' hi' hj']
      by_cases h1 : i' = i
      · have : j' ≠ n := fun h => hsame ⟨h1, h⟩
        have e : (j' < n + 1) = (j' < n) := by
          apply propext; constructor <;> intro <;> omega
        simp only [h1, true_and, e]
      · simp [h1]

/-- The nested loops `for i < m, for j < c: matrix_set(C, i, j, f i j)`. -/
theorem fill_spec [Zero α] (f : Nat → Nat → α) {r c : Nat}
    (C : Matrix α) (hC : Fits r c C) (m : Nat) (hm : m ≤ r) :
    Fits r c (for_loop m (fun i C =>
        for_loop c (fun j C => matrix_set C i j (f i j)) C) C) ∧
      ∀ i' j', i' < r → j' < c →
        matrix_get (for_loop m (fun i C =>
          for_loop c (fun j C => matrix_set C i j (f i j)) C) C) i' j' =
          if i' < m then f i' j' else matrix_get C i' j' := by
  induction m with
  | zero => exact ⟨hC, fun i' j' _ _ => by simp [for_loop]⟩
  | succ m ih =>
    obtain ⟨hF, hget⟩ := ih (by omega)
    have hrow := fill_row_spec (f m) m (by omega) _ hF c (le_refl c)
    refine ⟨hrow.1, ?_⟩
    intro i' j' hi' hj'
    rw [for_loop_succ, hrow.2 i' j' hi' hj', hget i' j' hi' hj']
    by_cases h1 : i' = m
    · simp [h1, hj']
    · by_cases h2 : i' < m
      · have : i' < m + 1 := by omega
        simp [h1, h2, this]
      · have : ¬ i' < m + 1 := by omega
        simp [h1, h2, this]

/-- A fresh matrix filled by the nested loops holds `f i j` at every
position. -/
theorem create_fill_spec [Zero α] (f : Nat → Nat → α) {r c : Nat}
    (h : r * c < SIZE_MODULUS) :
    ∃ C0 : Matrix α, matrix_create r c = some C0 ∧
      Fits r c (for_loop r (fun i C =>
        for_loop c (fun j C => matrix_set C i j (f i j)) C) C0) ∧
      ∀ i j, i < r → j < c →
        matrix_get (for_loop r (fun i C =>
          for_loop c (fun j C => matrix_set C i j (f i j)) C) C0) i j = f i j := by
  obtain ⟨C0, hc, hF, _⟩ := matrix_create_fits α h
  obtain ⟨h1, h2⟩ := fill_spec f C0 hF r (le_refl r)
  refine ⟨C0, hc, h1, ?_⟩
  intro i j hi hj
  rw [h2 i j hi hj, if_pos hi]

/-- Two matrices of the same shape with full buffers and equal entries are
the same value. -/
theorem fits_ext [Zero α] {r c : Nat} {A B : Matrix α} (hA : Fits r c A) (hB : Fits r c B)
    (h : ∀ i j, i < r → j < c → matrix_get A i j = matrix_get B i j) : A = B := by
  have hd : A.data = B.data := by
    apply List.ext_getElem (by rw [hA.2.2.1, hB.2.2.1])
    intro n hn1 hn2
    have hn : n < r * c := by rw [← hA.2.2.1]; exact hn1
    have hc : 0 < c := by
      rcases Nat.eq_zero_or_pos c with h0 | h0
      · rw [h0] at hn; simp at hn
      · exact h0
    have hj : n % c < c := Nat.mod_lt _ hc
    have hi : n / c < r := Nat.div_lt_of_lt_mul (by rwa [Nat.mul_comm] at hn)
    have hidx : n / c * c + n % c = n := by
      rw [Nat.mul_comm]; exact Nat.div_add_mod n c
    have e := h (n / c) (n % c) hi hj
    simp only [matrix_get, hA.index_of hi hj, hB.index_of hi hj, hidx,
      List.getD_eq_getElem?_getD, List.getElem?_eq_getElem hn1,
      List.getElem?_eq_getElem hn2, Option.getD_some] at e
    exact e
  obtain ⟨ar, ac, ad⟩ := A
  obtain ⟨br, bc, bd⟩ := B
  obtain ⟨h1, h2, _, _⟩ := hA
  obtain ⟨g1, g2, _, _⟩ := hB
  simp only at h1 h2 g1 g2 hd
  rw [h1, h2, g1, g2, hd]

end Fill

/-! ## Specifications of multiply, copy, identity and the power loop -/

section Specs

variable {α : Type}

/-- The product in any arithmetic of the entries: every entry is the sum the
code accumulates from `0` in the order `k = 0, ..., A.cols - 1`. -/
theorem matrix_multiply_fold [Zero α] [Add α] [Mul α] (A B : Matrix α)
    (hdim : A.cols = B.rows) (hfit : A.rows * B.cols < SIZE_MODULUS) :
    ∃ C : Matrix α, matrix_multiply (some A) (some B) = some C ∧
      Fits A.rows B.cols C ∧
      ∀ i j, i < A.rows → j < B.cols →
        matrix_get C i j =
          for_loop A.cols (fun k sum => sum + matrix_get A i k * matrix_get B k j) 0 := by
  obtain ⟨C0, hc, hF, hget⟩ := create_fill_spec
    (fun i j => for_loop A.cols (fun k sum => sum + matrix_get A i k * matrix_get B k j) (0 : α))
    hfit
  refine ⟨_, ?_, hF, hget⟩
  simp only [matrix_multiply, ne_eq, hdim, not_true_eq_false, if_false, hc]

theorem matrix_multiply_spec [Semiring α] (A B : Matrix α) (hdim : A.cols = B.rows)
    (hfit : A.rows * B.cols < SIZE_MODULUS) :
    ∃ C : Matrix α, matrix_multiply (some A) (some B) = some C ∧
      Fits A.rows B.cols C ∧
      ∀ i j, i < A.rows → j < B.cols →
        matrix_get C i j = ∑ k ∈ Finset.range A.cols, matrix_get A i k * matrix_get B k j := by
  obtain ⟨C0, hc, hF, hget⟩ := create_fill_spec
    (fun i j => for_loop A.cols (fun k sum => sum + matrix_get A i k * matrix_get B k j) (0 : α))
    hfit
  refine ⟨_, ?_, hF, ?_⟩
  · simp only [matrix_multiply, ne_eq, hdim, not_true_eq_false, if_false, hc]
  · intro i j hi hj
    rw [hget i j hi hj]
    exact for_loop_sum (fun k => matrix_get A i k * matrix_get B k j) A.cols

theorem matrix_multiply_toMat [Semiring α] {m n p : Nat} (A B : Matrix α)
    (hAr : A.rows = m) (hAc : A.cols = n) (hBr : B.rows = n) (hBc : B.cols = p)
    (hfit : m * p < SIZE_MODULUS) :
    ∃ C : Matrix α, matrix_multiply (some A) (some B) = some C ∧ Fits m p C ∧
      toMat m p C = toMat m n A * toMat n p B := by
  subst hAr hAc hBc
  obtain ⟨C, hC, hF, hget⟩ := matrix_multiply_spec A B hBr.symm hfit
  refine ⟨C, hC, hF, ?_⟩
  funext i j
  rw [Matrix.mul_apply]
  simp only [toMat]
  rw [hget i.val j.val i.isLt j.isLt]
  exact (Fin.sum_univ_eq_sum_range
    (fun k => matrix_get A i.val k * matrix_get B k j.val) A.cols).symm

theorem matrix_copy_spec [Zero α] (M : Matrix α) (hfit : M.rows * M.cols < SIZE_MODULUS) :
    ∃ B : Matrix α, matrix_copy M = some B ∧ Fits M.rows M.cols B ∧
      ∀ i j, i < M.rows → j < M.cols → matrix_get B i j = matrix_get M i j := by
  obtain ⟨C0, hc, hF, hget⟩ := create_fill_spec (fun i j => matrix_get M i j) hfit
  refine ⟨_, ?_, hF, hget⟩
  simp only [matrix_copy, hc]

theorem identity_init_spec (α : Type) [Zero α] [One α] {r c : Nat} (hfit : r * c < SIZE_MODULUS) :
    ∃ I : Matrix α, identity_init r c = some I ∧ Fits r c I ∧
      ∀ i j, i < r → j < c → matrix_get I i j = if i = j then 1 else 0 := by
  obtain ⟨C0, hc, hF, hget⟩ := create_fill_spec
    (fun i j => if i = j then (1 : α) else 0) hfit
  refine ⟨_, ?_, hF, hget⟩
  simp only [identity_init, hc]

theorem toMat_identity [Semiring α] {n : Nat} (I : Matrix α)
    (h : ∀ i j, i < n → j < n → matrix_get I i j = if i = j then 1 else 0) :
    toMat n n I = 1 := by
  funext i j
  simp only [toMat, h i.val j.val i.isLt j.isLt, Matrix.one_apply, Fin.ext_iff]

theorem and_one_ne_zero_iff (e : Nat) : (e &&& 1 ≠ 0) ↔ e % 2 = 1 := by
  rw [Nat.and_one_is_mod]; omega

theorem shiftRight_one_eq (e : Nat) : e >>> 1 = e / 2 := by
  rw [Nat.shiftRight_eq_div_pow, pow_one]

/-- Invariant of the squaring loop: it returns `result * base ^ exp`. -/
theorem power_loop_spec [Semiring α] {n : Nat} (hfit : n * n < SIZE_MODULUS) (exp : Nat) :
    ∀ result base : Matrix α, Fits n n result → Fits n n base →
      ∃ R : Matrix α, power_loop result base exp = some R ∧ Fits n n R ∧
        toMat n n R = toMat n n result * (toMat n n base) ^ exp := by
  induction exp using Nat.strong_induction_on with
  | _ e ih =>
    intro result base hR hB
    rcases Nat.eq_zero_or_pos e with h0 | hpos
    · subst h0
      refine ⟨result, ?_, hR, by simp⟩
      rw [power_loop]; simp
    · have hq : e / 2 < e := Nat.div_lt_self hpos (by norm_num)
      obtain ⟨S, hS, hSF, hSm⟩ :=
        matrix_multiply_toMat base base hB.1 hB.2.1 hB.1 hB.2.1 hfit
      obtain ⟨T, hT, hTF, hTm⟩ :=
        matrix_multiply_toMat result base hR.1 hR.2.1 hB.1 hB.2.1 hfit
      have hsq : ∀ q : Nat, (toMat n n base * toMat n n base) ^ q =
          (toMat n n base) ^ (2 * q) := by
        intro q; rw [← pow_two, ← pow_mul]
      rw [power_loop]
      simp only [gt_iff_lt, hpos, dite_true, and_one_ne_zero_iff, shiftRight_one_eq]
      by_cases hodd : e % 2 = 1
      · simp only [hodd, if_true, hT]
        by_cases hq0 : 0 < e / 2
        · simp only [hq0, if_true, hS]
          obtain ⟨R, h1, h2, h3⟩ := ih (e / 2) hq T S hTF hSF
          refine ⟨R, h1, h2, ?_⟩
          rw [h3, hTm, hSm, hsq, mul_assoc, ← pow_succ']
          congr 2; omega
        · simp only [hq0, if_false]
          obtain ⟨R, h1, h2, h3⟩ := ih (e / 2) hq T base hTF hB
          refine ⟨R, h1, h2, ?_⟩
          have he : e = 1 := by omega
          have hz : e / 2 = 0 := by omega
          rw [h3, hTm, hz, he]; simp
      · simp only [hodd, if_false]
        have hq0 : 0 < e / 2 := by omega
        simp only [hq0, if_true, hS]
        obtain ⟨R, h1, h2, h3⟩ := ih (e / 2) hq result S hR hSF
        refine ⟨R, h1, h2, ?_⟩
        rw [h3, hSm, hsq]
        congr 2; omega

/-- Main specification of `markov_power` for a square `n x n` input. -/
theorem markov_power_spec [Semiring α] {n : Nat} (M : Matrix α) (hr : M.rows = n)
    (hc : M.cols = n) (hfit : n * n < SIZE_MODULUS) (k : Nat) (hk1 : 1 ≤ k)
    (hk2 : k < UINT_MODULUS) :
    ∃ R : Matrix α, markov_power (some M) k = some R ∧ Fits n n R ∧
      toMat n n R = (toMat n n M) ^ k := by
  subst hr
  obtain ⟨I, hI, hIF, hIg⟩ := identity_init_spec α hfit
  have hfit2 : M.rows * M.cols < SIZE_MODULUS := by rw [hc]; exact hfit
  obtain ⟨B, hB, hBF, hBg⟩ := matrix_copy_spec M hfit2
  rw [hc] at hBF hBg
  obtain ⟨R, h1, h2, h3⟩ := power_loop_spec hfit k I B hIF hBF
  refine ⟨R, ?_, h2, ?_⟩
  · have hk0 : k ≠ 0 := by omega
    simp only [markov_power, Nat.mod_eq_of_lt hk2, hk0, if_false, hc, ne_eq,
      not_true_eq_false, hI, hB, h1]
  · have hBM : toMat M.rows M.rows B = toMat M.rows M.rows M := by
      funext i j
      exact hBg i.val j.val i.isLt j.isLt
    rw [h3, toMat_identity I hIg, hBM, one_mul]

end Specs

/-! ## Further helper lemmas -/

section Helpers

variable {α : Type}

theorem kfold_product_eq_pow [Semiring α] {n : Nat} (X : MathMatrix (Fin n) (Fin n) α) :
    ∀ k : Nat, kfold_product X k = X ^ k
  | 0 => by simp [kfold_product]
  | 1 => by simp [kfold_product]
  | k + 2 => by
    rw [kfold_product, kfold_product_eq_pow X (k + 1), ← pow_succ]

theorem toMat_ext [Zero α] {r c : Nat} {A B : Matrix α} (hA : Fits r c A) (hB : Fits r c B)
    (h : toMat r c A = toMat r c B) : A = B := by
  apply fits_ext hA hB
  intro i j hi hj
  exact congrFun (congrFun h ⟨i, hi⟩) ⟨j, hj⟩

/-- Right multiplication by an identity matrix keeps every entry. -/
theorem multiply_identity_right [Semiring α] (A I : Matrix α)
    (hfit : A.rows * A.cols < SIZE_MODULUS) (hI : IsIdentity A.cols I) :
    ∃ C : Matrix α, matrix_multiply (some A) (some I) = some C ∧
      Fits A.rows A.cols C ∧
      ∀ i j, i < A.rows → j < A.cols → matrix_get C i j = matrix_get A i j := by
  obtain ⟨hIr, hIc, hIg⟩ := hI
  obtain ⟨C, hC, hF, hget⟩ := matrix_multiply_spec A I hIr.symm (by rw [hIc]; exact hfit)
  rw [hIc] at hF hget
  refine ⟨C, hC, hF, ?_⟩
  intro i j hi hj
  rw [hget i j hi hj]
  have hsum : ∑ k ∈ Finset.range A.cols, matrix_get A i k * matrix_get I k j =
      ∑ k ∈ Finset.range A.cols, if k = j then matrix_get A i j else 0 := by
    apply Finset.sum_congr rfl
    intro k hk
    rw [hIg k (Finset.mem_range.mp hk) j hj]
    by_cases hkj : k = j
    · simp [hkj]
    · simp [hkj]
  rw [hsum, Finset.sum_ite_eq']
  simp [hj]

/-- Left multiplication by an identity matrix keeps every entry. -/
theorem multiply_identity_left [Semiring α] (A I : Matrix α)
    (hfit : A.rows * A.cols < SIZE_MODULUS) (hI : IsIdentity A.rows I) :
    ∃ C : Matrix α, matrix_multiply (some I) (some A) = some C ∧
      Fits A.rows A.cols C ∧
      ∀ i j, i < A.rows → j < A.cols → matrix_get C i j = matrix_get A i j := by
  obtain ⟨hIr, hIc, hIg⟩ := hI
  obtain ⟨C, hC, hF, hget⟩ := matrix_multiply_spec I A hIc (by rw [hIr]; exact hfit)
  rw [hIr] at hF hget
  rw [hIc] at hget
  refine ⟨C, hC, hF, ?_⟩
  intro i j hi hj
  rw [hget i j hi hj]
  have hsum : ∑ k ∈ Finset.range A.rows, matrix_get I i k * matrix_get A k j =
      ∑ k ∈ Finset.range A.rows, if i = k then matrix_get A i j else 0 := by
    apply Finset.sum_congr rfl
    intro k hk
    rw [hIg i hi k (Finset.mem_range.mp hk)]
    by_cases hik : i = k
    · simp [hik]
    · simp [hik]
  rw [hsum, Finset.sum_ite_eq]
  simp [hi]

/-- Product of two powers computed by `markov_power`. -/
theorem power_mul_power [Semiring α] {n : Nat} (M : Matrix α) (hr : M.rows = n)
    (hc : M.cols = n) (hfit : n * n < SIZE_MODULUS) (k1 k2 : Nat)
    (h1 : 1 ≤ k1) (h1u : k1 < UINT_MODULUS) (h2 : 1 ≤ k2) (h2u : k2 < UINT_MODULUS) :
    ∃ R : Matrix α,
      matrix_multiply (markov_power (some M) k1) (markov_power (some M) k2) = some R ∧
      Fits n n R ∧ toMat n n R = (toMat n n M) ^ (k1 + k2) := by
  obtain ⟨P, hP, hPF, hPm⟩ := markov_power_spec M hr hc hfit k1 h1 h1u
  obtain ⟨Q, hQ, hQF, hQm⟩ := markov_power_spec M hr hc hfit k2 h2 h2u
  obtain ⟨R, hR, hRF, hRm⟩ :=
    matrix_multiply_toMat P Q hPF.1 hPF.2.1 hQF.1 hQF.2.1 hfit
  refine ⟨R, ?_, hRF, ?_⟩
  · rw [hP, hQ, hR]
  · rw [hRm, hPm, hQm, pow_add]

theorem toMat_unit1 : toMat 1 1 unit1 = 1 := by
  apply toMat_identity
  intro i j hi hj
  have hi0 : i = 0 := by omega
  have hj0 : j = 0 := by omega
  subst hi0 hj0
  rfl

/-- Both sides of the semigroup law, when every exponent is in range. -/
theorem semigroup_law [Semiring α] (M : Matrix α) (hM : M.WF) (hsq : M.rows = M.cols)
    (k1 k2 : Nat) (h1 : 1 ≤ k1) (h2 : 1 ≤ k2) (hsum : k1 + k2 < UINT_MODULUS) :
    ∃ R : Matrix α, markov_power (some M) (k1 + k2) = some R ∧
      matrix_multiply (markov_power (some M) k1) (markov_power (some M) k2) = some R := by
  have hfit : M.rows * M.rows < SIZE_MODULUS := by
    have := hM.2.2.2
    rwa [← hsq] at this
  obtain ⟨R, hR, hRF, hRm⟩ :=
    markov_power_spec M rfl hsq.symm hfit (k1 + k2) (by omega) hsum
  obtain ⟨S, hS, hSF, hSm⟩ :=
    power_mul_power M rfl hsq.symm hfit k1 k2 h1 (by omega) h2 (by omega)
  refine ⟨R, hR, ?_⟩
  rw [hS, toMat_ext hSF hRF (by rw [hSm, hRm])]

/-- The first power is a copy of the input. -/
theorem power_one [Semiring α] (M : Matrix α) (hM : M.WF) (hsq : M.rows = M.cols) :
    markov_power (some M) 1 = some M := by
  have hfit : M.rows * M.rows < SIZE_MODULUS := by
    have := hM.2.2.2
    rwa [← hsq] at this
  obtain ⟨R, hR, hRF, hRm⟩ :=
    markov_power_spec M rfl hsq.symm hfit 1 (le_refl 1) (by decide)
  have hMF : Fits M.rows M.rows M := by
    have := hM.fits
    rwa [← hsq] at this
  rw [hR, toMat_ext hRF hMF (by rw [hRm, pow_one])]

end Helpers

/-! ## The Markov check -/

section ChainGeneric

variable {α : Type} [Zero α] [One α] [Add α] [Sub α] [Neg α] [LT α]
  [DecidableRel ((· < ·) : α → α → Prop)] [Fabs α]

omit [One α] [Sub α] [Fabs α] in
/-- The inner loop, started at column `j` with the sum accumulated so far,
runs to the end when no entry fails the sign test. -/
theorem chain_row_loop_acc (M : Matrix α) (eps : α) (i : Nat) :
    ∀ (n j : Nat), (∀ t, t < n → ¬ matrix_get M i (j + t) < -eps) →
      chain_row_loop M eps i n j
          (for_loop j (fun j row_sum => row_sum + matrix_get M i j) 0) =
        some (for_loop (j + n) (fun j row_sum => row_sum + matrix_get M i j) 0)
  | 0, j, _ => by simp [chain_row_loop]
  | n + 1, j, h => by
    have h0 : ¬ matrix_get M i j < -eps := by simpa using h 0 (by omega)
    have hrest : ∀ t, t < n → ¬ matrix_get M i (j + 1 + t) < -eps := by
      intro t ht
      have := h (t + 1) (by omega)
      rwa [show j + (t + 1) = j + 1 + t by omega] at this
    rw [chain_row_loop]
    simp only [h0, if_false]
    have hstep := chain_row_loop_acc M eps i n (j + 1) hrest
    rw [for_loop_succ] at hstep
    rw [hstep, show j + 1 + n = j + (n + 1) by omega]

omit [One α] [Sub α] [Fabs α] in
theorem chain_row_loop_none (M : Matrix α) (eps : α) (i : Nat) :
    ∀ (n j : Nat) (s : α), (∃ t, t < n ∧ matrix_get M i (j + t) < -eps) →
      chain_row_loop M eps i n j s = none
  | 0, j, s, h => by
    obtain ⟨t, ht, _⟩ := h
    omega
  | n + 1, j, s, h => by
    rw [chain_row_loop]
    by_cases h0 : matrix_get M i j < -eps
    · simp only [h0, if_true]
    · simp only [h0, if_false]
      apply chain_row_loop_none M eps i n (j + 1)
      obtain ⟨t, ht, hv⟩ := h
      rcases Nat.eq_zero_or_pos t with ht0 | htpos
      · subst ht0
        exact absurd hv h0
      · refine ⟨t - 1, by omega, ?_⟩
        rwa [show j + 1 + (t - 1) = j + t by omega]

/-- What the body of the outer loop does on row `i`. -/
theorem chain_row_cases (M : Matrix α) (eps : α) (i : Nat) :
    (RowPasses M eps i ∧ chain_row_loop M eps i M.cols 0 0 = some (row_acc M i)) ∨
    (¬ RowPasses M eps i ∧
      (chain_row_loop M eps i M.cols 0 0 = none ∨
        (chain_row_loop M eps i M.cols 0 0 = some (row_acc M i) ∧
          fabs (row_acc M i - 1) > eps))) := by
  by_cases hent : ∀ j, j < M.cols → ¬ matrix_get M i j < -eps
  · have hsome : chain_row_loop M eps i M.cols 0 0 = some (row_acc M i) := by
      have := chain_row_loop_acc M eps i M.cols 0 (by simpa using hent)
      rw [for_loop_zero, Nat.zero_add, for_loop_eq_foldl] at this
      exact this
    by_cases hs : fabs (row_acc M i - 1) > eps
    · exact Or.inr ⟨fun h => h.2 hs, Or.inr ⟨hsome, hs⟩⟩
    · exact Or.inl ⟨⟨hent, hs⟩, hsome⟩
  · refine Or.inr ⟨fun h => hent h.1, Or.inl ?_⟩
    apply chain_row_loop_none
    push_neg at hent
    obtain ⟨j, hj, hv⟩ := hent
    exact ⟨j, hj, by simpa using hv⟩

theorem chain_loop_zero_or_one (M : Matrix α) (eps : α) :
    ∀ n i : Nat, chain_loop M eps n i = 1 ∨ chain_loop M eps n i = 0
  | 0, _ => Or.inl rfl
  | n + 1, i => by
    have ih := chain_loop_zero_or_one M eps n (i + 1)
    rw [chain_loop]
    rcases chain_row_cases M eps i with ⟨_, h⟩ | ⟨_, h | ⟨h, _⟩⟩
    · rw [h]
      by_cases hc : fabs (row_acc M i - 1) > eps
      · dsimp only
        rw [if_pos hc]
        exact Or.inr rfl
      · dsimp only
        rw [if_neg hc]
        exact ih
    · rw [h]
      exact Or.inr rfl
    · rw [h]
      by_cases hc : fabs (row_acc M i - 1) > eps
      · dsimp only
        rw [if_pos hc]
        exact Or.inr rfl
      · dsimp only
        rw [if_neg hc]
        exact ih

theorem chain_loop_passes_iff (M : Matrix α) (eps : α) :
    ∀ n i : Nat, chain_loop M eps n i = 1 ↔ ∀ t, t < n → RowPasses M eps (i + t)
  | 0, i => by
    simp [chain_loop]
  | n + 1, i => by
    have ih := chain_loop_passes_iff M eps n (i + 1)
    have hshift : (∀ t, t < n + 1 → RowPasses M eps (i + t)) ↔
        RowPasses M eps i ∧ ∀ t, t < n → RowPasses M eps (i + 1 + t) := by
      constructor
      · intro h
        refine ⟨by simpa using h 0 (by omega), fun t ht => ?_⟩
        have := h (t + 1) (by omega)
        rwa [show i + (t + 1) = i + 1 + t by omega] at this
      · rintro ⟨h0, h⟩ t ht
        rcases Nat.eq_zero_or_pos t with ht0 | htpos
        · subst ht0; simpa using h0
        · have := h (t - 1) (by omega)
          rwa [show i + 1 + (t - 1) = i + t by omega] at this
    rw [hshift, chain_loop]
    rcases chain_row_cases M eps i with ⟨hok, h⟩ | ⟨hnok, h | ⟨h, hgt⟩⟩
    · rw [h]
      dsimp only
      rw [if_neg hok.2, ih]
      exact ⟨fun hall => ⟨hok, hall⟩, fun hall => hall.2⟩
    · rw [h]
      dsimp only
      exact ⟨fun hfalse => absurd hfalse (by decide), fun hall => absurd hall.1 hnok⟩
    · rw [h]
      dsimp only
      rw [if_pos hgt]
      exact ⟨fun hfalse => absurd hfalse (by decide), fun hall => absurd hall.1 hnok⟩

/-- The check as the code performs it, in any arithmetic of the entries. -/
theorem is_chain_passes_iff (M : Matrix α) (eps : α) :
    markov_is_chain (some M) eps = 1 ↔ ∀ i, i < M.rows → RowPasses M eps i := by
  simp only [markov_is_chain, chain_loop_passes_iff, Nat.zero_add]

theorem is_chain_zero_or_one (M : Matrix α) (eps : α) :
    markov_is_chain (some M) eps = 1 ∨ markov_is_chain (some M) eps = 0 :=
  chain_loop_zero_or_one M eps M.rows 0

end ChainGeneric

section ChainLemmas

variable {α : Type} [LinearOrderedRing α]

theorem fabs_eq_abs (x : α) : fabs x = |x| := rfl

theorem row_acc_eq_sum (M : Matrix α) (i : Nat) :
    row_acc M i = ∑ j ∈ Finset.range M.cols, matrix_get M i j := by
  rw [← for_loop_sum (fun j => matrix_get M i j) M.cols, for_loop_eq_foldl]
  rfl

/-- On exact numbers the two tests are the two inequalities. -/
theorem rowPasses_iff_rowOK (M : Matrix α) (eps : α) (i : Nat) :
    RowPasses M eps i ↔ RowOK M eps i := by
  unfold RowPasses RowOK
  rw [row_acc_eq_sum, fabs_eq_abs]
  simp only [not_lt, gt_iff_lt]

theorem is_chain_iff (M : Matrix α) (eps : α) :
    markov_is_chain (some M) eps = 1 ↔ ∀ i, i < M.rows → RowOK M eps i := by
  rw [is_chain_passes_iff]
  simp only [rowPasses_iff_rowOK]

/-- A non-negative matrix whose rows sum to exactly one passes the check for
every non-negative tolerance. -/
theorem stochastic_is_chain (M : Matrix α) (eps : α)
    (hnn : ∀ i, i < M.rows → ∀ j, j < M.cols → 0 ≤ matrix_get M i j)
    (hsum : ∀ i, i < M.rows → ∑ j ∈ Finset.range M.cols, matrix_get M i j = 1)
    (heps : 0 ≤ eps) : markov_is_chain (some M) eps = 1 := by
  rw [is_chain_iff]
  intro i hi
  refine ⟨fun j hj => le_trans (neg_nonpos.mpr heps) (hnn i hi j hj), ?_⟩
  rw [hsum i hi]
  simpa using heps

/-- Entry read back from a row after one in-bounds write into that row. -/
theorem get_set_row (M : Matrix α) (hM : M.WF) (i j : Nat) (hi : i < M.rows)
    (hj : j < M.cols) (v : α) (j' : Nat) (hj' : j' < M.cols) :
    matrix_get (matrix_set M i j v) i j' = if j' = j then v else matrix_get M i j' := by
  have hF := hM.fits
  by_cases h : j' = j
  · subst h
    rw [get_set_same _ _ _ _ (hF.index_lt hi hj'), if_pos rfl]
  · rw [if_neg h]
    apply get_set_other
    rw [hF.index_of hi hj, hF.index_of hi hj']
    intro heq
    exact h (flat_inj hj hj' heq).2.symm

/-- Perturbing one entry by more than the tolerance makes the check fail. -/
theorem perturbed_not_chain (M : Matrix α) (hM : M.WF) (eps delta : α) (i j : Nat)
    (hi : i < M.rows) (hj : j < M.cols)
    (hsum : ∑ j' ∈ Finset.range M.cols, matrix_get M i j' = 1)
    (hd : |delta| > eps) :
    markov_is_chain (some (matrix_set M i j (matrix_get M i j + delta))) eps = 0 := by
  rcases is_chain_zero_or_one (matrix_set M i j (matrix_get M i j + delta)) eps with h | h
  · exfalso
    rw [is_chain_iff] at h
    have hrow := (h i hi).2
    have hs : ∑ j' ∈ Finset.range M.cols,
        matrix_get (matrix_set M i j (matrix_get M i j + delta)) i j' = 1 + delta := by
      have e : ∀ j' ∈ Finset.range M.cols,
          matrix_get (matrix_set M i j (matrix_get M i j + delta)) i j' =
            matrix_get M i j' + if j' = j then delta else 0 := by
        intro j' hj'
        rw [get_set_row M hM i j hi hj _ j' (Finset.mem_range.mp hj')]
        by_cases hjj : j' = j
        · simp [hjj]
        · simp [hjj]
      rw [Finset.sum_congr rfl e, Finset.sum_add_distrib, hsum, Finset.sum_ite_eq']
      simp [hj]
    have hcols : (matrix_set M i j (matrix_get M i j + delta)).cols = M.cols := rfl
    rw [hcols, hs, add_sub_cancel_left] at hrow
    exact absurd hrow (not_le.mpr hd)
  · exact h

theorem demoM_nonneg :
    ∀ i, i < demoM.rows → ∀ j, j < demoM.cols → 0 ≤ matrix_get demoM i j := by
  intro i hi j hj
  have hi2 : i < 2 := hi
  have hj2 : j < 2 := hj
  interval_cases i <;> interval_cases j <;>
    norm_num [matrix_get, index_of, demoM, SIZE_MODULUS]

theorem demoM_row_sums :
    ∀ i, i < demoM.rows → ∑ j ∈ Finset.range demoM.cols, matrix_get demoM i j = 1 := by
  intro i hi
  have hi2 : i < 2 := hi
  have hc : demoM.cols = 2 := rfl
  rw [hc]
  interval_cases i <;>
    norm_num [Finset.sum_range_succ, matrix_get, index_of, demoM, SIZE_MODULUS]

theorem demo_eps_nonneg : (0 : ℚ) ≤ 1 / 1000000000 := by norm_num

theorem demo_delta_large : |(-1 / 100 : ℚ)| > 1 / 1000000000 := by
  rw [abs_of_neg (by norm_num)]
  norm_num

end ChainLemmas

/-! ## The claims -/

section Claims

variable {α : Type}

/-- C2: for a well-formed square `n x n` matrix `M` and an `unsigned int`
exponent `k ≥ 1`, `markov_power` succeeds and returns an `n x n` matrix whose
entries are those of the `k`-fold product `M * M * ... * M`. Since a failing
`matrix_multiply` makes `markov_power` fail, no internal call fails. -/
theorem C2_markov_power_kfold [Semiring α] (M : Matrix α) (n k : Nat) (hM : M.WF)
    (hr : M.rows = n) (hc : M.cols = n) (hk1 : 1 ≤ k) (hk2 : k < UINT_MODULUS) :
    ∃ R : Matrix α, markov_power (some M) k = some R ∧ R.rows = n ∧ R.cols = n ∧
      ∀ i j : Fin n, matrix_get R i.val j.val = kfold_product (toMat n n M) k i j := by
  have hfit : n * n < SIZE_MODULUS := by
    have := hM.2.2.2
    rwa [hr, hc] at this
  obtain ⟨R, hR, hRF, hRm⟩ := markov_power_spec M hr hc hfit k hk1 hk2
  refine ⟨R, hR, hRF.1, hRF.2.1, ?_⟩
  intro i j
  rw [kfold_product_eq_pow, ← hRm]
  rfl

/-- Witness of C2 on the transition matrix of `demo_markov`, with `k = 3`. -/
theorem C2_markov_power_kfold_witness :
    (demoM.WF ∧ demoM.rows = 2 ∧ demoM.cols = 2 ∧ 1 ≤ 3 ∧ 3 < UINT_MODULUS) ∧
    ∃ R : Matrix ℚ, markov_power (some demoM) 3 = some R ∧ R.rows = 2 ∧ R.cols = 2 ∧
      ∀ i j : Fin 2, matrix_get R i.val j.val = kfold_product (toMat 2 2 demoM) 3 i j :=
  ⟨⟨by decide, by decide, by decide, by decide, by decide⟩,
    C2_markov_power_kfold demoM 2 3 (by decide) (by decide) (by decide) (by decide)
      (by decide)⟩

/-- C6, as amended: for a well-formed square matrix `M`, with entries taken
as exact numbers, and exponents `k1, k2 ≥ 1` whose sum is representable in
`unsigned int`, `matrix_multiply(markov_power(M, k1), markov_power(M, k2))`
and `markov_power(M, k1 + k2)` both succeed and return the same matrix, hence
equal element-wise. -/
theorem C6_semigroup_in_range [Semiring α] (M : Matrix α) (k1 k2 : Nat) (hM : M.WF)
    (hsq : M.rows = M.cols) (h1 : 1 ≤ k1) (h2 : 1 ≤ k2)
    (hsum : k1 + k2 < UINT_MODULUS) :
    ∃ R : Matrix α, markov_power (some M) (k1 + k2) = some R ∧
      matrix_multiply (markov_power (some M) k1) (markov_power (some M) k2) = some R :=
  semigroup_law M hM hsq k1 k2 h1 h2 hsum

/-- Witness of C6 (amended) on the transition matrix of `demo_markov`. -/
theorem C6_semigroup_in_range_witness :
    (demoM.WF ∧ demoM.rows = demoM.cols ∧ 1 ≤ 2 ∧ 1 ≤ 1 ∧ 2 + 1 < UINT_MODULUS) ∧
    ∃ R : Matrix ℚ, markov_power (some demoM) (2 + 1) = some R ∧
      matrix_multiply (markov_power (some demoM) 2) (markov_power (some demoM) 1) = some R :=
  ⟨⟨by decide, by decide, by decide, by decide, by decide⟩,
    C6_semigroup_in_range demoM 2 1 (by decide) (by decide) (by decide) (by decide)
      (by decide)⟩

/-- C9, as amended: with entries, row sums and `eps` taken as exact numbers,
for a matrix `M` (square or not) with all entries `≥ 0` and every row summing
to exactly `1`, and every `eps ≥ 0`, `markov_is_chain(M, eps)` returns `1`. -/
theorem C9_stochastic_is_chain [LinearOrderedRing α] (M : Matrix α) (eps : α)
    (hnn : ∀ i, i < M.rows → ∀ j, j < M.cols → 0 ≤ matrix_get M i j)
    (hsum : ∀ i, i < M.rows → ∑ j ∈ Finset.range M.cols, matrix_get M i j = 1)
    (heps : 0 ≤ eps) : markov_is_chain (some M) eps = 1 :=
  stochastic_is_chain M eps hnn hsum heps

/-- Witness of C9 (amended) on the transition matrix of `demo_markov` with the
tolerance `1e-9` of the demo. -/
theorem C9_stochastic_is_chain_witness :
    ((∀ i, i < demoM.rows → ∀ j, j < demoM.cols → 0 ≤ matrix_get demoM i j) ∧
      (∀ i, i < demoM.rows → ∑ j ∈ Finset.range demoM.cols, matrix_get demoM i j = 1) ∧
      (0 : ℚ) ≤ 1 / 1000000000) ∧
    markov_is_chain (some demoM) (1 / 1000000000) = 1 :=
  ⟨⟨demoM_nonneg, demoM_row_sums, demo_eps_nonneg⟩,
    C9_stochastic_is_chain demoM (1 / 1000000000) demoM_nonneg demoM_row_sums
      demo_eps_nonneg⟩

/-- C10, as amended: with entries, row sums, `eps` and `delta` taken as exact
numbers, for a well-formed matrix `M` with all entries `≥ 0` and every row
summing to exactly `1`, every `eps ≥ 0`, every in-bounds position `(i, j)` and
every `delta` with `|delta| > eps` (of either sign), the matrix obtained by
`matrix_set(M, i, j, M[i][j] + delta)` makes `markov_is_chain` return `0`,
whereas `markov_is_chain(M, eps)` returns `1`. -/
theorem C10_perturbation_flips [LinearOrderedRing α] (M : Matrix α) (eps delta : α)
    (i j : Nat) (hM : M.WF)
    (hnn : ∀ i, i < M.rows → ∀ j, j < M.cols → 0 ≤ matrix_get M i j)
    (hsum : ∀ i, i < M.rows → ∑ j ∈ Finset.range M.cols, matrix_get M i j = 1)
    (heps : 0 ≤ eps) (hi : i < M.rows) (hj : j < M.cols) (hd : |delta| > eps) :
    markov_is_chain (some (matrix_set M i j (matrix_get M i j + delta))) eps = 0 ∧
    markov_is_chain (some M) eps = 1 :=
  ⟨perturbed_not_chain M hM eps delta i j hi hj (hsum i hi) hd,
    stochastic_is_chain M eps hnn hsum heps⟩

/-- Witness of C10 (amended): entry `(1, 0)` of the demo transition matrix lowered by
`1/100`, with tolerance `1e-9`. -/
theorem C10_perturbation_flips_witness :
    (demoM.WF ∧
      (∀ i, i < demoM.rows → ∀ j, j < demoM.cols → 0 ≤ matrix_get demoM i j) ∧
      (∀ i, i < demoM.rows → ∑ j ∈ Finset.range demoM.cols, matrix_get demoM i j = 1) ∧
      (0 : ℚ) ≤ 1 / 1000000000 ∧ 1 < demoM.rows ∧ 0 < demoM.cols ∧
      |(-1 / 100 : ℚ)| > 1 / 1000000000) ∧
    (markov_is_chain
        (some (matrix_set demoM 1 0 (matrix_get demoM 1 0 + -1 / 100))) (1 / 1000000000) = 0 ∧
      markov_is_chain (some demoM) (1 / 1000000000) = 1) :=
  ⟨⟨by decide, demoM_nonneg, demoM_row_sums, demo_eps_nonneg, by decide, by decide,
      demo_delta_large⟩,
    C10_perturbation_flips demoM (1 / 1000000000) (-1 / 100) 1 0 (by decide) demoM_nonneg
      demoM_row_sums demo_eps_nonneg (by decide) (by decide) demo_delta_large⟩

end Claims

/-! ## The demo scenarios of main.c -/

section DemoLemmas

theorem demo_build_A_eq : demo_build_A = some demoA := by decide

theorem demo_build_B_eq : demo_build_B = some demoB := by decide

theorem demo_build_M_eq : demo_build_M = some demoM := by
  simp [demo_build_M, matrix_create, matrix_set, index_of, demoM, SIZE_MODULUS]

theorem demoA_mul_demoB : matrix_multiply (some demoA) (some demoB) = some demoC := by
  simp [matrix_multiply, matrix_create, for_loop, matrix_set, matrix_get, index_of, demoA,
    demoB, demoC, SIZE_MODULUS]
  norm_num

theorem demoM_mul_demoM : matrix_multiply (some demoM) (some demoM) = some demoM2 := by
  simp [matrix_multiply, matrix_create, for_loop, matrix_set, matrix_get, index_of, demoM,
    demoM2, SIZE_MODULUS]
  norm_num

theorem demoM2_mul_demoM : matrix_multiply (some demoM2) (some demoM) = some demoM3 := by
  simp [matrix_multiply, matrix_create, for_loop, matrix_set, matrix_get, index_of, demoM,
    demoM2, demoM3, SIZE_MODULUS]
  norm_num

theorem demoM_power_one : markov_power (some demoM) 1 = some demoM :=
  power_one demoM (by decide) (by decide)

theorem demoM_power_two : markov_power (some demoM) 2 = some demoM2 := by
  obtain ⟨R, hR, hprod⟩ :=
    semigroup_law demoM (by decide) (by decide) 1 1 (by decide) (by decide) (by decide)
  rw [demoM_power_one, demoM_mul_demoM] at hprod
  rw [show (2 : Nat) = 1 + 1 from rfl, hR, hprod]

theorem demoM_power_three :
    markov_power (some demoM) 3 =
      matrix_multiply (markov_power (some demoM) 2) (markov_power (some demoM) 1) := by
  obtain ⟨R, hR, hprod⟩ :=
    semigroup_law demoM (by decide) (by decide) 2 1 (by decide) (by decide) (by decide)
  rw [show (3 : Nat) = 2 + 1 from rfl, hR, hprod]

end DemoLemmas

/-! ## Shape of a created or multiplied matrix, without any size assumption -/

section Shapes

variable {α : Type}

theorem for_loop_invariant {σ : Type} (P : σ → Prop) (body : Nat → σ → σ)
    (hbody : ∀ i s, P s → P (body i s)) (n : Nat) (s : σ) (hs : P s) :
    P (for_loop n body s) := by
  induction n with
  | zero => exact hs
  | succ n ih => exact hbody n _ ih

/-- The nested fill loops never change the dimensions or the buffer length. -/
theorem fill_shape (f : Nat → Nat → α) (m c : Nat) (C : Matrix α) :
    (for_loop m (fun i C =>
        for_loop c (fun j C => matrix_set C i j (f i j)) C) C).rows = C.rows ∧
    (for_loop m (fun i C =>
        for_loop c (fun j C => matrix_set C i j (f i j)) C) C).cols = C.cols ∧
    (for_loop m (fun i C =>
        for_loop c (fun j C => matrix_set C i j (f i j)) C) C).data.length =
      C.data.length := by
  apply for_loop_invariant
    (fun X : Matrix α => X.rows = C.rows ∧ X.cols = C.cols ∧ X.data.length = C.data.length)
  · intro i X hX
    apply for_loop_invariant
      (fun Y : Matrix α => Y.rows = C.rows ∧ Y.cols = C.cols ∧ Y.data.length = C.data.length)
    · intro j Y hY
      exact ⟨hY.1, hY.2.1, by simpa [matrix_set] using hY.2.2⟩
    · exact hX
  · exact ⟨rfl, rfl, rfl⟩

/-- Shape of the result of `matrix_multiply`, whatever the sizes: the buffer
has `A.rows * B.cols` elements only modulo `2 ^ 64`. -/
theorem matrix_multiply_shape [Zero α] [Add α] [Mul α] (A B : Matrix α)
    (hdim : A.cols = B.rows) :
    ∃ C : Matrix α, matrix_multiply (some A) (some B) = some C ∧
      C.rows = A.rows ∧ C.cols = B.cols ∧
      C.data.length = (A.rows * B.cols) % SIZE_MODULUS := by
  have hs := fill_shape
    (fun i j => for_loop A.cols (fun k sum => sum + matrix_get A i k * matrix_get B k j) (0 : α))
    A.rows B.cols (Matrix.mk A.rows B.cols (List.replicate ((A.rows * B.cols) % SIZE_MODULUS) 0))
  refine ⟨_, ?_, hs.1, hs.2.1, ?_⟩
  · simp only [matrix_multiply, ne_eq, hdim, not_true_eq_false, if_false, matrix_create]
  · rw [hs.2.2, List.length_replicate]

end Shapes

/-! ## Counting the multiplications of the squaring loop -/

section CountLemmas

variable {α : Type}

end CountLemmas

/-! ## Row-stochastic matrices -/

section StochasticLemmas

variable {α : Type} [LinearOrderedRing α]

theorem mstoch_mul {m n p : Nat} (X : MathMatrix (Fin m) (Fin n) α)
    (Y : MathMatrix (Fin n) (Fin p) α) (hX : MStoch X) (hY : MStoch Y) :
    MStoch (X * Y) := by
  constructor
  · intro i j
    rw [Matrix.mul_apply]
    exact Finset.sum_nonneg (fun k _ => mul_nonneg (hX.1 i k) (hY.1 k j))
  · intro i
    simp only [Matrix.mul_apply]
    rw [Finset.sum_comm]
    simp only [← Finset.mul_sum, hY.2, mul_one, hX.2]

theorem mstoch_pow {n : Nat} (X : MathMatrix (Fin n) (Fin n) α) (hX : MStoch X) :
    ∀ k : Nat, 1 ≤ k → MStoch (X ^ k) := by
  intro k hk
  induction k, hk using Nat.le_induction with
  | base => rwa [pow_one]
  | succ k _ ih =>
    rw [pow_succ]
    exact mstoch_mul _ _ ih hX

theorem mstoch_of_matrix {r c : Nat} (M : Matrix α) (hr : M.rows = r) (hc : M.cols = c)
    (hnn : NonNegative M) (hrs : RowStochastic M) : MStoch (toMat r c M) := by
  subst hr hc
  constructor
  · intro i j
    exact hnn i.val i.isLt j.val j.isLt
  · intro i
    rw [← hrs i.val i.isLt]
    exact Fin.sum_univ_eq_sum_range (fun j => matrix_get M i.val j) M.cols

theorem matrix_of_mstoch {r c : Nat} (M : Matrix α) (hr : M.rows = r) (hc : M.cols = c)
    (h : MStoch (toMat r c M)) : NonNegative M ∧ RowStochastic M := by
  subst hr hc
  constructor
  · intro i hi j hj
    exact h.1 ⟨i, hi⟩ ⟨j, hj⟩
  · intro i hi
    rw [← h.2 ⟨i, hi⟩]
    exact (Fin.sum_univ_eq_sum_range (fun j => matrix_get M i j) M.cols).symm

/-- The product of two non-negative row-stochastic matrices is one. -/
theorem multiply_stochastic (A B : Matrix α) (hdim : A.cols = B.rows)
    (hfit : A.rows * B.cols < SIZE_MODULUS)
    (hA : NonNegative A ∧ RowStochastic A) (hB : NonNegative B ∧ RowStochastic B) :
    ∃ C : Matrix α, matrix_multiply (some A) (some B) = some C ∧
      C.rows = A.rows ∧ C.cols = B.cols ∧ NonNegative C ∧ RowStochastic C := by
  obtain ⟨C, hC, hF, hm⟩ := matrix_multiply_toMat A B rfl hdim rfl rfl hfit
  refine ⟨C, hC, hF.1, hF.2.1, ?_⟩
  apply matrix_of_mstoch C hF.1 hF.2.1
  rw [hm]
  exact mstoch_mul _ _ (mstoch_of_matrix A rfl hdim hA.1 hA.2)
    (mstoch_of_matrix B rfl rfl hB.1 hB.2)

/-- Every power of a non-negative row-stochastic matrix is one. -/
theorem power_stochastic (M : Matrix α) (hM : M.WF) (hsq : M.rows = M.cols)
    (hMs : NonNegative M ∧ RowStochastic M) (k : Nat) (hk1 : 1 ≤ k)
    (hk2 : k < UINT_MODULUS) :
    ∃ R : Matrix α, markov_power (some M) k = some R ∧
      NonNegative R ∧ RowStochastic R := by
  have hfit : M.rows * M.rows < SIZE_MODULUS := by
    have := hM.2.2.2
    rwa [← hsq] at this
  obtain ⟨R, hR, hF, hm⟩ := markov_power_spec M rfl hsq.symm hfit k hk1 hk2
  refine ⟨R, hR, ?_⟩
  apply matrix_of_mstoch R hF.1 hF.2.1
  rw [hm]
  exact mstoch_pow _ (mstoch_of_matrix M rfl hsq.symm hMs.1 hMs.2) k hk1

end StochasticLemmas

/-! ## Associativity -/

section AssocLemmas

variable {α : Type}

theorem multiply_assoc [Semiring α] (A B C : Matrix α) (hAB : A.cols = B.rows)
    (hBC : B.cols = C.rows) (h1 : A.rows * B.cols < SIZE_MODULUS)
    (h2 : B.rows * C.cols < SIZE_MODULUS) (h3 : A.rows * C.cols < SIZE_MODULUS) :
    ∃ R : Matrix α,
      matrix_multiply (matrix_multiply (some A) (some B)) (some C) = some R ∧
      matrix_multiply (some A) (matrix_multiply (some B) (some C)) = some R ∧
      R.rows = A.rows ∧ R.cols = C.cols := by
  have h2' : A.cols * C.cols < SIZE_MODULUS := by rw [hAB]; exact h2
  obtain ⟨P, hP, hPF, hPm⟩ := matrix_multiply_toMat A B rfl rfl hAB.symm rfl h1
  obtain ⟨L, hL, hLF, hLm⟩ := matrix_multiply_toMat P C hPF.1 hPF.2.1 hBC.symm rfl h3
  obtain ⟨Q, hQ, hQF, hQm⟩ := matrix_multiply_toMat B C hAB.symm rfl hBC.symm rfl h2'
  obtain ⟨R, hR, hRF, hRm⟩ := matrix_multiply_toMat A Q rfl rfl hQF.1 hQF.2.1 h3
  have hLR : L = R := toMat_ext hLF hRF (by rw [hLm, hPm, hRm, hQm, Matrix.mul_assoc])
  refine ⟨R, ?_, ?_, hRF.1, hRF.2.1⟩
  · rw [hP, hL, hLR]
  · rw [hQ, hR]

end AssocLemmas

/-! ## The first three exponents, in any arithmetic -/

section SmallPowers

variable {α : Type} [Zero α] [Add α] [Mul α]

theorem power_loop_zero (r b : Matrix α) : power_loop r b 0 = some r := by
  rw [power_loop]
  simp

theorem power_loop_one (r b : Matrix α) :
    power_loop r b 1 = matrix_multiply (some r) (some b) := by
  rw [power_loop]
  have h1 : (1 : Nat) &&& 1 ≠ 0 := by decide
  have h2 : ¬ (1 : Nat) >>> 1 > 0 := by decide
  rw [dif_pos (by decide), if_pos h1]
  cases hm : matrix_multiply (some r) (some b) with
  | none => rfl
  | some T =>
    dsimp only
    rw [if_neg h2, show (1 : Nat) >>> 1 = 0 from rfl, power_loop_zero]

theorem power_loop_two (r b : Matrix α) :
    power_loop r b 2 = matrix_multiply (some r) (matrix_multiply (some b) (some b)) := by
  rw [power_loop]
  have h1 : ¬ (2 : Nat) &&& 1 ≠ 0 := by decide
  have h2 : (2 : Nat) >>> 1 > 0 := by decide
  rw [dif_pos (by decide), if_neg h1]
  dsimp only
  rw [if_pos h2]
  cases hm : matrix_multiply (some b) (some b) with
  | none => rfl
  | some S =>
    dsimp only
    rw [show (2 : Nat) >>> 1 = 1 from rfl, power_loop_one]

theorem power_loop_three (r b : Matrix α) :
    power_loop r b 3 =
      matrix_multiply (matrix_multiply (some r) (some b))
        (matrix_multiply (some b) (some b)) := by
  rw [power_loop]
  have h1 : (3 : Nat) &&& 1 ≠ 0 := by decide
  have h2 : (3 : Nat) >>> 1 > 0 := by decide
  rw [dif_pos (by decide), if_pos h1]
  cases hm : matrix_multiply (some r) (some b) with
  | none => rfl
  | some T =>
    dsimp only
    rw [if_pos h2]
    cases hs : matrix_multiply (some b) (some b) with
    | none => rfl
    | some S =>
      dsimp only
      rw [show (3 : Nat) >>> 1 = 1 from rfl, power_loop_one]

/-- What `markov_power` computes for an exponent `k` in range on a square
matrix: the loop, started on the identity and a copy of `M`. -/
theorem markov_power_unfold [One α] (M : Matrix α) (hsq : M.rows = M.cols) (k : Nat)
    (hk1 : 1 ≤ k) (hk2 : k < UINT_MODULUS) :
    markov_power (some M) k =
      match (identity_init M.rows M.cols : Option (Matrix α)), matrix_copy M with
      | some result, some base => power_loop result base k
      | _, _ => none := by
  have hk0 : k ≠ 0 := by omega
  simp only [markov_power, Nat.mod_eq_of_lt hk2, hk0, if_false, ne_eq, hsq,
    not_true_eq_false]
  cases (identity_init M.cols M.cols : Option (Matrix α)) <;> cases matrix_copy M <;> rfl

end SmallPowers

/-! ## Laws of the arithmetic of doubles -/

section DoubleLaws

open F64

theorem F64.round_fin_zero (e : Int) : round_fin 0 e = fin 0 0 := by
  unfold round_fin
  simp only [Int.natAbs_zero]
  split
  · simp [pack]
  · have hpos : 0 < 2 ^ ((max ((bitlen 0 : Int) - 1 + e - 52) (-1074) - e).toNat - 1) :=
      Nat.two_pow_pos _
    simp [pack, Nat.not_lt.mpr (Nat.zero_le _), hpos]

theorem F64.isFiniteDouble_zero : IsFiniteDouble (0 : F64) := by decide

theorem F64.mul_one_of_double (x : F64) (hx : IsFiniteDouble x) : x * 1 = x := by
  cases x with
  | nan => exact absurd hx (by simp [IsFiniteDouble])
  | inf s => exact absurd hx (by simp [IsFiniteDouble])
  | fin m e =>
    show F64.mul (fin m e) (fin 1 0) = fin m e
    simp only [F64.mul, Int.mul_one, Int.add_zero]
    exact hx

theorem F64.one_mul_of_double (x : F64) (hx : IsFiniteDouble x) : 1 * x = x := by
  cases x with
  | nan => exact absurd hx (by simp [IsFiniteDouble])
  | inf s => exact absurd hx (by simp [IsFiniteDouble])
  | fin m e =>
    show F64.mul (fin 1 0) (fin m e) = fin m e
    simp only [F64.mul, Int.one_mul, Int.zero_add]
    exact hx

theorem F64.mul_zero_of_double (x : F64) (hx : IsFiniteDouble x) : x * 0 = 0 := by
  cases x with
  | nan => exact absurd hx (by simp [IsFiniteDouble])
  | inf s => exact absurd hx (by simp [IsFiniteDouble])
  | fin m e =>
    show F64.mul (fin m e) (fin 0 0) = fin 0 0
    simp only [F64.mul, Int.mul_zero, Int.add_zero]
    exact F64.round_fin_zero e

theorem F64.zero_mul_of_double (x : F64) (hx : IsFiniteDouble x) : 0 * x = 0 := by
  cases x with
  | nan => exact absurd hx (by simp [IsFiniteDouble])
  | inf s => exact absurd hx (by simp [IsFiniteDouble])
  | fin m e =>
    show F64.mul (fin 0 0) (fin m e) = fin 0 0
    simp only [F64.mul, Int.zero_mul, Int.zero_add]
    exact F64.round_fin_zero e

theorem F64.add_zero_of_double (x : F64) (hx : IsFiniteDouble x) : x + 0 = x := by
  cases x with
  | nan => exact absurd hx (by simp [IsFiniteDouble])
  | inf s => exact absurd hx (by simp [IsFiniteDouble])
  | fin m e =>
    show F64.add (fin m e) (fin 0 0) = fin m e
    simp only [F64.add, exact_add, if_true]
    exact hx

theorem F64.zero_add_of_double (x : F64) (hx : IsFiniteDouble x) : 0 + x = x := by
  cases x with
  | nan => exact absurd hx (by simp [IsFiniteDouble])
  | inf s => exact absurd hx (by simp [IsFiniteDouble])
  | fin m e =>
    show F64.add (fin 0 0) (fin m e) = fin m e
    by_cases hm : m = 0
    · subst hm
      have h0 : round_fin 0 e = fin 0 e := hx
      rw [F64.round_fin_zero] at h0
      simp only [F64.add, exact_add, if_true]
      rw [F64.round_fin_zero]
      exact h0
    · simp only [F64.add, exact_add, hm, if_false, if_true]
      exact hx

end DoubleLaws

/-! ## Identity matrices and comparisons on doubles -/

section DoubleMatrices

open F64

theorem for_loop_congr {σ : Type} (f g : Nat → σ → σ) (n : Nat)
    (h : ∀ k, k < n → ∀ s, f k s = g k s) (s0 : σ) : for_loop n f s0 = for_loop n g s0 := by
  induction n with
  | zero => rfl
  | succ n ih =>
    rw [for_loop_succ, for_loop_succ, ih (fun k hk => h k (by omega)), h n (by omega)]

/-- The dot product of finite doubles `a k` with a unit vector on the right is
the component `a j`. -/
theorem fold_unit_right (a : Nat → F64) (j : Nat) :
    ∀ n : Nat, (∀ k, k < n → IsFiniteDouble (a k)) →
      for_loop n (fun k s => s + a k * (if k = j then 1 else 0)) (0 : F64) =
        if j < n then a j else 0
  | 0, _ => by simp [for_loop]
  | n + 1, ha => by
    have ih := fold_unit_right a j n (fun k hk => ha k (by omega))
    rw [for_loop_succ, ih]
    by_cases hnj : n = j
    · subst hnj
      rw [if_pos rfl, if_neg (Nat.lt_irrefl _), if_pos (Nat.lt_succ_self _),
        F64.mul_one_of_double _ (ha n (by omega)),
        F64.zero_add_of_double _ (ha n (by omega))]
    · rw [if_neg hnj, F64.mul_zero_of_double _ (ha n (by omega))]
      by_cases hjn : j < n
      · rw [if_pos hjn, if_pos (by omega), F64.add_zero_of_double _ (ha j (by omega))]
      · rw [if_neg hjn, if_neg (by omega), F64.add_zero_of_double _ F64.isFiniteDouble_zero]

/-- The dot product of a unit vector on the left with finite doubles `a k` is
the component `a i`. -/
theorem fold_unit_left (a : Nat → F64) (i : Nat) :
    ∀ n : Nat, (∀ k, k < n → IsFiniteDouble (a k)) →
      for_loop n (fun k s => s + (if i = k then 1 else 0) * a k) (0 : F64) =
        if i < n then a i else 0
  | 0, _ => by simp [for_loop]
  | n + 1, ha => by
    have ih := fold_unit_left a i n (fun k hk => ha k (by omega))
    rw [for_loop_succ, ih]
    by_cases hin : i = n
    · subst hin
      rw [if_pos rfl, if_neg (Nat.lt_irrefl _), if_pos (Nat.lt_succ_self _),
        F64.one_mul_of_double _ (ha i (by omega)),
        F64.zero_add_of_double _ (ha i (by omega))]
    · rw [if_neg hin, F64.zero_mul_of_double _ (ha n (by omega))]
      by_cases hlt : i < n
      · rw [if_pos hlt, if_pos (by omega), F64.add_zero_of_double _ (ha i (by omega))]
      · rw [if_neg hlt, if_neg (by omega), F64.add_zero_of_double _ F64.isFiniteDouble_zero]

/-- On finite doubles, right multiplication by an identity matrix keeps every
entry. -/
theorem multiply_identity_right_doubles (A I : Matrix F64)
    (hfit : A.rows * A.cols < SIZE_MODULUS) (hfin : FiniteEntries A)
    (hI : IsIdentity A.cols I) :
    ∃ C : Matrix F64, matrix_multiply (some A) (some I) = some C ∧
      Fits A.rows A.cols C ∧
      ∀ i j, i < A.rows → j < A.cols → matrix_get C i j = matrix_get A i j := by
  obtain ⟨hIr, hIc, hIg⟩ := hI
  obtain ⟨C, hC, hF, hget⟩ := matrix_multiply_fold A I hIr.symm (by rw [hIc]; exact hfit)
  rw [hIc] at hF hget
  refine ⟨C, hC, hF, ?_⟩
  intro i j hi hj
  rw [hget i j hi hj]
  rw [for_loop_congr _ (fun k s => s + matrix_get A i k * (if k = j then 1 else 0)) A.cols
    (fun k hk s => by rw [hIg k hk j hj])]
  rw [fold_unit_right (fun k => matrix_get A i k) j A.cols (fun k hk => hfin i hi k hk),
    if_pos hj]

/-- On finite doubles, left multiplication by an identity matrix keeps every
entry. -/
theorem multiply_identity_left_doubles (A I : Matrix F64)
    (hfit : A.rows * A.cols < SIZE_MODULUS) (hfin : FiniteEntries A)
    (hI : IsIdentity A.rows I) :
    ∃ C : Matrix F64, matrix_multiply (some I) (some A) = some C ∧
      Fits A.rows A.cols C ∧
      ∀ i j, i < A.rows → j < A.cols → matrix_get C i j = matrix_get A i j := by
  obtain ⟨hIr, hIc, hIg⟩ := hI
  obtain ⟨C, hC, hF, hget⟩ := matrix_multiply_fold I A hIc (by rw [hIr]; exact hfit)
  rw [hIr] at hF hget
  rw [hIc] at hget
  refine ⟨C, hC, hF, ?_⟩
  intro i j hi hj
  rw [hget i j hi hj]
  rw [for_loop_congr _ (fun k s => s + (if i = k then 1 else 0) * matrix_get A k j) A.rows
    (fun k hk s => by rw [hIg i hi k hk])]
  rw [fold_unit_left (fun k => matrix_get A k j) i A.rows (fun k hk => hfin k hk j hj),
    if_pos hi]

/-- The first power of a matrix of finite doubles is a copy of it. -/
theorem power_one_doubles (M : Matrix F64) (hM : M.WF) (hsq : M.rows = M.cols)
    (hfin : FiniteEntries M) : markov_power (some M) 1 = some M := by
  have hfit : M.rows * M.cols < SIZE_MODULUS := hM.2.2.2
  obtain ⟨I, hI, hIF, hIg⟩ := identity_init_spec F64 hfit
  obtain ⟨B, hB, hBF, hBg⟩ := matrix_copy_spec M hfit
  have hBfin : FiniteEntries B := by
    intro i hi j hj
    rw [hBF.1] at hi
    rw [hBF.2.1] at hj
    rw [hBg i j hi hj]
    exact hfin i hi j hj
  have hIid : IsIdentity B.rows I := by
    rw [hBF.1]
    refine ⟨hIF.1, ?_, ?_⟩
    · rw [hIF.2.1, hsq]
    · intro i hi j hj
      exact hIg i j hi (by rw [← hsq]; exact hj)
  have hfitB : B.rows * B.cols < SIZE_MODULUS := by rw [hBF.1, hBF.2.1]; exact hfit
  obtain ⟨C, hC, hCF, hCg⟩ := multiply_identity_left_doubles B I hfitB hBfin hIid
  rw [hBF.1, hBF.2.1] at hCF hCg
  rw [markov_power_unfold M hsq 1 (le_refl 1) (by decide), hI, hB]
  dsimp only
  rw [power_loop_one, hC]
  congr 1
  apply fits_ext hCF hM.fits
  intro i j hi hj
  rw [hCg i j hi hj, hBg i j hi hj]

/-- Between two doubles that are not NaN, `x < y` fails exactly when
`y <= x`. -/
theorem F64.not_lt_iff_le (x y : F64) (hx : x ≠ nan) (hy : y ≠ nan) :
    ¬ x < y ↔ y ≤ x := by
  cases x with
  | nan => exact absurd rfl hx
  | inf s =>
    cases y with
    | nan => exact absurd rfl hy
    | inf t =>
      show ¬ F64.lt (inf s) (inf t) = true ↔ F64.le (inf t) (inf s) = true
      cases s <;> cases t <;> simp [F64.lt, F64.le]
    | fin m e =>
      show ¬ F64.lt (inf s) (fin m e) = true ↔ F64.le (fin m e) (inf s) = true
      cases s <;> simp [F64.lt, F64.le]
  | fin m e =>
    cases y with
    | nan => exact absurd rfl hy
    | inf t =>
      show ¬ F64.lt (fin m e) (inf t) = true ↔ F64.le (inf t) (fin m e) = true
      cases t <;> simp [F64.lt, F64.le]
    | fin m2 e2 =>
      show ¬ F64.lt (fin m e) (fin m2 e2) = true ↔ F64.le (fin m2 e2) (fin m e) = true
      simp only [F64.lt, F64.le, decide_eq_true_eq, not_lt, min_comm e2 e]

end DoubleMatrices

/-! ## Matrices too large for their product -/

section BigMatrices

variable {α : Type}

theorem get_of_empty [Zero α] (C : Matrix α) (h : C.data.length = 0) (i j : Nat) :
    matrix_get C i j = 0 := by
  have hnil : C.data = [] := List.eq_nil_of_length_eq_zero h
  simp only [matrix_get, hnil, List.getD_eq_getElem?_getD, List.getElem?_nil,
    Option.getD_none]

theorem get_replicate [Zero α] (r c n : Nat) (x : α) (i j : Nat)
    (h : index_of (Matrix.mk r c (List.replicate n x)) i j < n) :
    matrix_get (Matrix.mk r c (List.replicate n x)) i j = x := by
  simp only [matrix_get, List.getD_eq_getElem?_getD]
  rw [List.getElem?_replicate, if_pos h]
  rfl

theorem bigCol_get (i : Nat) (hi : i < 4294967296) : matrix_get bigCol i 0 = 1 := by
  apply get_replicate
  simp only [index_of, SIZE_MODULUS]
  omega

theorem bigRow_get (j : Nat) (hj : j < 4294967296) : matrix_get bigRow 0 j = 1 := by
  apply get_replicate
  simp only [index_of, SIZE_MODULUS]
  omega

theorem unitRow_get (j : Nat) (hj : j < 4294967296) :
    matrix_get unitRow 0 j = if j = 0 then 1 else 0 := by
  have hidx : index_of unitRow 0 j = j := by
    simp only [index_of, SIZE_MODULUS, unitRow]
    omega
  unfold matrix_get
  rw [hidx]
  show ((1 : ℚ) :: List.replicate 4294967295 0).getD j 0 = _
  cases j with
  | zero => rfl
  | succ j =>
    rw [if_neg (Nat.succ_ne_zero j), List.getD_eq_getElem?_getD, List.getElem?_cons_succ,
      List.getElem?_replicate]
    split
    · exact Option.getD_some
    · exact Option.getD_none

theorem bigCol_wf : bigCol.WF := by
  refine ⟨by decide, by decide, ?_, by decide⟩
  show (List.replicate 4294967296 (1 : ℚ)).length = 4294967296 * 1
  rw [List.length_replicate]

theorem bigRow_wf : bigRow.WF := by
  refine ⟨by decide, by decide, ?_, by decide⟩
  show (List.replicate 4294967296 (1 : ℚ)).length = 1 * 4294967296
  rw [List.length_replicate]

theorem unitRow_wf : unitRow.WF := by
  refine ⟨by decide, by decide, ?_, by decide⟩
  show ((1 : ℚ) :: List.replicate 4294967295 0).length = 1 * 4294967296
  rw [List.length_cons, List.length_replicate]

theorem bigCol_stochastic : NonNegative bigCol ∧ RowStochastic bigCol := by
  constructor
  · intro i hi j hj
    have hj0 : j = 0 := by
      have : j < 1 := hj
      omega
    subst hj0
    rw [bigCol_get i hi]
    exact zero_le_one
  · intro i hi
    have hc : bigCol.cols = 1 := rfl
    rw [hc, Finset.sum_range_one, bigCol_get i hi]

theorem unitRow_stochastic : NonNegative unitRow ∧ RowStochastic unitRow := by
  constructor
  · intro i hi j hj
    have hi0 : i = 0 := by
      have : i < 1 := hi
      omega
    subst hi0
    rw [unitRow_get j hj]
    split
    · exact zero_le_one
    · exact le_refl 0
  · intro i hi
    have hi0 : i = 0 := by
      have : i < 1 := hi
      omega
    subst hi0
    have hc : unitRow.cols = 4294967296 := rfl
    rw [hc, Finset.sum_congr rfl
      (fun j hj => unitRow_get j (Finset.mem_range.mp hj)), Finset.sum_ite_eq']
    simp

/-- The matrix that `matrix_multiply` allocates for a `2^32 x 2^32` product
has no element: the first write of the loop, at offset `0`, is outside it. -/
theorem big_product_buffer (α : Type) [Zero α] :
    ∃ C0 : Matrix α, matrix_create 4294967296 4294967296 = some C0 ∧
      C0.data.length = 0 ∧ ¬ index_of C0 0 0 < C0.data.length := by
  have hlen : (List.replicate (4294967296 * 4294967296 % SIZE_MODULUS) (0 : α)).length = 0 := by
    rw [List.length_replicate]
    decide
  refine ⟨_, rfl, hlen, ?_⟩
  show ¬ _ < (List.replicate (4294967296 * 4294967296 % SIZE_MODULUS) (0 : α)).length
  rw [hlen]
  exact Nat.not_lt_zero _

/-- In the embedding, where a write outside the buffer is dropped, a
`2^32 x 2^32` product reads `0` everywhere. -/
theorem big_product_reads_zero [Zero α] [Add α] [Mul α] (A B C : Matrix α)
    (hA : A.rows = 4294967296) (hB : B.cols = 4294967296) (hdim : A.cols = B.rows)
    (hC : matrix_multiply (some A) (some B) = some C) :
    C.rows = 4294967296 ∧ C.cols = 4294967296 ∧ ∀ i j, matrix_get C i j = 0 := by
  obtain ⟨C', hC', hr, hc, hlen⟩ := matrix_multiply_shape A B hdim
  rw [hC] at hC'
  have hCC : C = C' := Option.some.inj hC'
  subst hCC
  rw [hA, hB] at hlen
  exact ⟨hr.trans hA, hc.trans hB, get_of_empty C (by rw [hlen]; decide)⟩

end BigMatrices

section Claims2

variable {α : Type}

/-- C11: the matrices built by `matrix_create` and `matrix_set` as in
`demo_basic_multiply` are `A = [[1,2,3],[4,5,6]]` and
`B = [[7,8],[9,10],[11,12]]`, and `matrix_multiply(A, B)` succeeds and returns
the `2 x 2` matrix `[[58,64],[139,154]]`. -/
theorem C11_demo_basic_multiply :
    demo_build_A = some demoA ∧ demo_build_B = some demoB ∧
    matrix_multiply (some demoA) (some demoB) = some demoC ∧
    demo_basic_multiply = some demoC ∧
    demoC.rows = 2 ∧ demoC.cols = 2 ∧
    matrix_get demoC 0 0 = 58 ∧ matrix_get demoC 0 1 = 64 ∧
    matrix_get demoC 1 0 = 139 ∧ matrix_get demoC 1 1 = 154 := by
  refine ⟨demo_build_A_eq, demo_build_B_eq, demoA_mul_demoB, ?_, rfl, rfl,
    by decide, by decide, by decide, by decide⟩
  rw [demo_basic_multiply, demo_build_A_eq, demo_build_B_eq, demoA_mul_demoB]

/-- C12: for `M = [[0.9,0.1],[0.5,0.5]]` (as built in `demo_markov`),
`markov_is_chain(M, 1e-9)` returns `1`, `markov_power(M, 2)` is
`[[0.86,0.14],[0.70,0.30]]`, and `markov_power(M, 3)` equals
`matrix_multiply(markov_power(M, 2), markov_power(M, 1))`, which is
`[[0.844,0.156],[0.78,0.22]]`; entries are exact decimals. -/
theorem C12_demo_markov :
    demo_build_M = some demoM ∧
    markov_is_chain (some demoM) (1 / 1000000000) = 1 ∧
    markov_power (some demoM) 2 = some demoM2 ∧
    markov_power (some demoM) 3 =
      matrix_multiply (markov_power (some demoM) 2) (markov_power (some demoM) 1) ∧
    markov_power (some demoM) 3 = some demoM3 := by
  refine ⟨demo_build_M_eq,
    stochastic_is_chain demoM _ demoM_nonneg demoM_row_sums demo_eps_nonneg,
    demoM_power_two, demoM_power_three, ?_⟩
  rw [demoM_power_three, demoM_power_two, demoM_power_one, demoM2_mul_demoM]

/-- C14: for a well-formed matrix `m`, an in-bounds position `(i, j)` and a
value `v`: after `matrix_set(m, i, j, v)`, `matrix_get(m, i, j)` is `v`, every
other in-bounds position reads as before, and `rows` and `cols` are
unchanged; the element `(i, j)` is the one at buffer offset `i * cols + j`,
which is inside the buffer, is read by `matrix_get` and is the only one
written by `matrix_set`. -/
theorem C14_set_get_frame [Zero α] (m : Matrix α) (i j : Nat) (v : α) (hm : m.WF)
    (hi : i < m.rows) (hj : j < m.cols) :
    matrix_get (matrix_set m i j v) i j = v ∧
    (∀ i' j', i' < m.rows → j' < m.cols → (i', j') ≠ (i, j) →
      matrix_get (matrix_set m i j v) i' j' = matrix_get m i' j') ∧
    (matrix_set m i j v).rows = m.rows ∧ (matrix_set m i j v).cols = m.cols ∧
    index_of m i j = i * m.cols + j ∧ i * m.cols + j < m.data.length ∧
    m.data[i * m.cols + j]? = some (matrix_get m i j) ∧
    (matrix_set m i j v).data = m.data.set (i * m.cols + j) v := by
  have hF := hm.fits
  have hidx := hF.index_of hi hj
  have hlt := hF.index_lt hi hj
  refine ⟨get_set_same _ _ _ _ hlt, ?_, rfl, rfl, hidx, by rwa [hidx] at hlt, ?_, ?_⟩
  · intro i' j' hi' hj' hne
    apply get_set_other
    rw [hidx, hF.index_of hi' hj']
    intro heq
    obtain ⟨h1, h2⟩ := flat_inj hj hj' heq
    exact hne (by rw [h1, h2])
  · rw [hidx] at hlt
    simp only [matrix_get, hidx, List.getD_eq_getElem?_getD, List.getElem?_eq_getElem hlt,
      Option.getD_some]
  · simp only [matrix_set, hidx]

/-- Witness of C14: writing `42` at position `(1, 2)` of the `2 x 3` demo
matrix. -/
theorem C14_set_get_frame_witness :
    (demoA.WF ∧ 1 < demoA.rows ∧ 2 < demoA.cols) ∧
    (matrix_get (matrix_set demoA 1 2 42) 1 2 = 42 ∧
    (∀ i' j', i' < demoA.rows → j' < demoA.cols → (i', j') ≠ (1, 2) →
      matrix_get (matrix_set demoA 1 2 42) i' j' = matrix_get demoA i' j') ∧
    (matrix_set demoA 1 2 42).rows = demoA.rows ∧
    (matrix_set demoA 1 2 42).cols = demoA.cols ∧
    index_of demoA 1 2 = 1 * demoA.cols + 2 ∧ 1 * demoA.cols + 2 < demoA.data.length ∧
    demoA.data[1 * demoA.cols + 2]? = some (matrix_get demoA 1 2) ∧
    (matrix_set demoA 1 2 42).data = demoA.data.set (1 * demoA.cols + 2) 42) :=
  ⟨⟨by decide, by decide, by decide⟩,
    C14_set_get_frame demoA 1 2 42 (by decide) (by decide) (by decide)⟩

/-- C15 fails on the code: `matrix_create(2^32, 2^32)` returns a matrix that
records `2^32` rows and `2^32` columns over an empty buffer, because the
element count `rows * cols` wraps to `0` in `size_t`. The same matrix is
returned by `matrix_multiply` on the well-formed empty matrices of shapes
`2^32 x 0` and `0 x 2^32`, so `matrix_multiply` does not preserve the
invariant either. -/
theorem C15_buffer_length_overflow :
    (∃ m : Matrix ℚ, matrix_create 4294967296 4294967296 = some m ∧
      m.rows = 4294967296 ∧ m.cols = 4294967296 ∧ m.data.length = 0 ∧
      m.data.length ≠ m.rows * m.cols) ∧
    tallEmpty.WF ∧ wideEmpty.WF ∧
    (∃ C : Matrix ℚ, matrix_multiply (some tallEmpty) (some wideEmpty) = some C ∧
      C.rows = 4294967296 ∧ C.cols = 4294967296 ∧ C.data.length = 0 ∧
      C.data.length ≠ C.rows * C.cols) := by
  refine ⟨⟨_, rfl, rfl, rfl, by decide, by decide⟩, by decide, by decide, ?_⟩
  obtain ⟨C, hC, hr, hc, hlen⟩ := matrix_multiply_shape tallEmpty wideEmpty rfl
  have hlen0 : C.data.length = 0 := by rw [hlen]; decide
  refine ⟨C, hC, hr, hc, hlen0, ?_⟩
  rw [hlen0, hr, hc]
  decide

end Claims2

/-! ## Concrete runs on doubles -/

section DoubleRuns

theorem markov_power_one_eq {α : Type} [Zero α] [One α] [Add α] [Mul α] (M I B : Matrix α)
    (hsq : M.rows = M.cols) (hI : identity_init M.rows M.cols = some I)
    (hB : matrix_copy M = some B) :
    markov_power (some M) 1 = matrix_multiply (some I) (some B) := by
  rw [markov_power_unfold M hsq 1 (le_refl 1) (by decide), hI, hB]
  exact power_loop_one I B

theorem markov_power_two_eq {α : Type} [Zero α] [One α] [Add α] [Mul α] (M I B : Matrix α)
    (hsq : M.rows = M.cols) (hI : identity_init M.rows M.cols = some I)
    (hB : matrix_copy M = some B) :
    markov_power (some M) 2 =
      matrix_multiply (some I) (matrix_multiply (some B) (some B)) := by
  rw [markov_power_unfold M hsq 2 (by decide) (by decide), hI, hB]
  exact power_loop_two I B

theorem markov_power_three_eq {α : Type} [Zero α] [One α] [Add α] [Mul α] (M I B : Matrix α)
    (hsq : M.rows = M.cols) (hI : identity_init M.rows M.cols = some I)
    (hB : matrix_copy M = some B) :
    markov_power (some M) 3 =
      matrix_multiply (matrix_multiply (some I) (some B))
        (matrix_multiply (some B) (some B)) := by
  rw [markov_power_unfold M hsq 3 (by decide) (by decide), hI, hB]
  exact power_loop_three I B

theorem identity_init_two : (identity_init 2 2 : Option (Matrix F64)) = some dblI2 := by
  decide

theorem dblM_copy : matrix_copy dblM = some dblM := by decide

theorem dblInfA_copy : matrix_copy dblInfA = some dblInfA := by decide

set_option maxRecDepth 100000 in
theorem dblM_power_one : markov_power (some dblM) 1 = some dblM := by
  rw [markov_power_one_eq dblM dblI2 dblM rfl identity_init_two dblM_copy]
  decide

set_option maxRecDepth 100000 in
theorem dblM_squared : matrix_multiply (some dblM) (some dblM) = some dblM2 := by
  decide

set_option maxRecDepth 100000 in
theorem dblM_power_two : markov_power (some dblM) 2 = some dblM2 := by
  rw [markov_power_two_eq dblM dblI2 dblM rfl identity_init_two dblM_copy, dblM_squared]
  decide

set_option maxRecDepth 100000 in
theorem dblM_power_three : markov_power (some dblM) 3 = some dblM3 := by
  rw [markov_power_three_eq dblM dblI2 dblM rfl identity_init_two dblM_copy, dblM_squared]
  decide

set_option maxRecDepth 100000 in
theorem dblM2_mul_dblM : matrix_multiply (some dblM2) (some dblM) = some dblM2M1 := by
  decide

set_option maxRecDepth 100000 in
theorem dblInfA_power_one : markov_power (some dblInfA) 1 = some dblInfLeft := by
  rw [markov_power_one_eq dblInfA dblI2 dblInfA rfl identity_init_two dblInfA_copy]
  decide

set_option maxRecDepth 100000 in
theorem dblTenth_squared :
    matrix_multiply (some dblTenth) (some dblTenth) = some dblTenthSq := by
  decide

set_option maxRecDepth 100000 in
theorem dblInfA_times_identity :
    matrix_multiply (some dblInfA) (some dblI2) = some dblInfRight ∧
    matrix_multiply (some dblI2) (some dblInfA) = some dblInfLeft := by
  decide

set_option maxRecDepth 100000 in
theorem dblNaNRow_is_chain : markov_is_chain (some dblNaNRow) dbl_eps = 1 := by decide

set_option maxRecDepth 100000 in
theorem dblTinyRow_is_chain : markov_is_chain (some dblTinyRow) 0 = 1 := by decide

set_option maxRecDepth 100000 in
theorem dblStoch4_not_chain : markov_is_chain (some dblStoch4) 0 = 0 := by decide

set_option maxRecDepth 100000 in
theorem dblOne_absorbs :
    matrix_set dblOne 0 0 (matrix_get dblOne 0 0 + dbl_tiny) = dblOne := by decide

set_option maxRecDepth 100000 in
theorem dblOne_is_chain : markov_is_chain (some dblOne) 0 = 1 := by decide

set_option maxRecDepth 100000 in
theorem dblNoCols_nan : markov_is_chain (some dblNoCols) F64.nan = 1 := by decide

theorem fabs_zero_sub_one_double : Fabs.fabs ((0 : F64) - 1) = (1 : F64) := by decide

/-- A row without columns passes the check exactly when `eps < 1` fails. -/
theorem rowPasses_no_columns (M : Matrix F64) (eps : F64) (hc : M.cols = 0) (i : Nat) :
    RowPasses M eps i ↔ ¬ eps < 1 := by
  unfold RowPasses row_acc
  rw [hc]
  simp only [List.range_zero, List.foldl_nil]
  rw [fabs_zero_sub_one_double]
  constructor
  · intro h
    exact h.2
  · intro h
    exact ⟨fun j hj => absurd hj (Nat.not_lt_zero j), h⟩

theorem dblStoch4_rows (i : Nat) (hi : i < 4) :
    matrix_get dblStoch4 i 0 = F64.fin 9007199254740991 (-53) ∧
    matrix_get dblStoch4 i 1 = F64.fin 3 (-56) ∧
    matrix_get dblStoch4 i 2 = F64.fin 3 (-56) ∧
    matrix_get dblStoch4 i 3 = F64.fin 1 (-55) := by
  interval_cases i <;> decide

end DoubleRuns

/-! ## The claims on doubles and on products too large for `size_t` -/

section Claims3

variable {α : Type}

/-- C1, as amended: for well-formed `A` and `B` with `A.cols = B.rows` whose
product has an element count `A.rows * B.cols` with
`A.rows * B.cols * sizeof(double)` at most `PTRDIFF_MAX`, `matrix_multiply`
(its allocation succeeding) returns a well-formed matrix `C`
with `C.rows = A.rows`, `C.cols = B.cols` and, at every position, `C[i][j]`
the value accumulated from `0.0` by `sum + A[i][k] * B[k][j]` for
`k = 0, ..., A.cols - 1` in this order, in the arithmetic of the entries (for
doubles every product and every partial sum is rounded); it is `0.0` when
`A.cols = 0`. Every element the loops read or write lies inside its buffer. -/
theorem C1_matrix_multiply_accumulated [Zero α] [Add α] [Mul α] (A B : Matrix α)
    (hA : A.WF) (hB : B.WF) (hdim : A.cols = B.rows)
    (hfit : A.rows * B.cols * SIZEOF_DOUBLE ≤ PTRDIFF_MAX) :
    ∃ C : Matrix α, matrix_multiply (some A) (some B) = some C ∧ C.WF ∧
      C.rows = A.rows ∧ C.cols = B.cols ∧
      (∀ i j, i < A.rows → j < B.cols →
        matrix_get C i j =
          (List.range A.cols).foldl
            (fun sum k => sum + matrix_get A i k * matrix_get B k j) 0) ∧
      (A.cols = 0 → ∀ i j, i < A.rows → j < B.cols → matrix_get C i j = 0) ∧
      (∀ i j k, i < A.rows → j < B.cols → k < A.cols →
        index_of A i k < A.data.length ∧ index_of B k j < B.data.length ∧
          index_of C i j < C.data.length) := by
  have hfit2 : A.rows * B.cols < SIZE_MODULUS := by
    unfold SIZEOF_DOUBLE PTRDIFF_MAX at hfit
    unfold SIZE_MODULUS
    omega
  obtain ⟨C, hC, hF, hget⟩ := matrix_multiply_fold A B hdim hfit2
  have hfold : ∀ i j, i < A.rows → j < B.cols →
      matrix_get C i j =
        (List.range A.cols).foldl
          (fun sum k => sum + matrix_get A i k * matrix_get B k j) 0 := by
    intro i j hi hj
    rw [hget i j hi hj, for_loop_eq_foldl]
  have hCwf : C.WF := by
    obtain ⟨h1, h2, h3, h4⟩ := hF
    refine ⟨by rw [h1]; exact hA.1, by rw [h2]; exact hB.2.1, by rw [h1, h2]; exact h3,
      by rw [h1, h2]; exact h4⟩
  refine ⟨C, hC, hCwf, hF.1, hF.2.1, hfold, ?_, ?_⟩
  · intro h0 i j hi hj
    rw [hfold i j hi hj, h0]
    rfl
  · intro i j k hi hj hk
    exact ⟨hA.fits.index_lt hi hk, hB.fits.index_lt (by rw [← hdim]; exact hk) hj,
      hF.index_lt hi hj⟩

set_option maxRecDepth 100000 in
/-- Witness of C1 (amended) on the product of the demo transition matrix, in
doubles, with itself. -/
theorem C1_matrix_multiply_accumulated_witness :
    (dblM.WF ∧ dblM.cols = dblM.rows ∧
      dblM.rows * dblM.cols * SIZEOF_DOUBLE ≤ PTRDIFF_MAX) ∧
    ∃ C : Matrix F64, matrix_multiply (some dblM) (some dblM) = some C ∧ C.WF ∧
      C.rows = dblM.rows ∧ C.cols = dblM.cols ∧
      (∀ i j, i < dblM.rows → j < dblM.cols →
        matrix_get C i j =
          (List.range dblM.cols).foldl
            (fun sum k => sum + matrix_get dblM i k * matrix_get dblM k j) 0) ∧
      (dblM.cols = 0 → ∀ i j, i < dblM.rows → j < dblM.cols → matrix_get C i j = 0) ∧
      (∀ i j k, i < dblM.rows → j < dblM.cols → k < dblM.cols →
        index_of dblM i k < dblM.data.length ∧ index_of dblM k j < dblM.data.length ∧
          index_of C i j < C.data.length) :=
  ⟨⟨by decide, by decide, by decide⟩,
    C1_matrix_multiply_accumulated dblM dblM (by decide) (by decide) (by decide)
      (by decide)⟩

/-- C1 as stated fails twice. In doubles, `[[0.1]] * [[0.1]]` is the rounded
product, which is not the product of the two entries as numbers. And for the
well-formed `2^32 x 1` column and `1 x 2^32` row of ones the element count
`2^32 * 2^32` wraps to `0`: the result has no element, and its entry `(0, 0)`
(read as `0` here) is not the sum `1`. -/
theorem C1_matrix_multiply_counterexample :
    (dblTenth.cols = dblTenth.rows ∧
      ∃ C : Matrix F64, matrix_multiply (some dblTenth) (some dblTenth) = some C ∧
        F64.toRat (matrix_get C 0 0) ≠
          ∑ k ∈ Finset.range dblTenth.cols,
            F64.toRat (matrix_get dblTenth 0 k) * F64.toRat (matrix_get dblTenth k 0)) ∧
    (bigCol.WF ∧ bigRow.WF ∧ bigCol.cols = bigRow.rows ∧
      ∃ C : Matrix ℚ, matrix_multiply (some bigCol) (some bigRow) = some C ∧
        C.data.length = 0 ∧
        matrix_get C 0 0 ≠
          ∑ k ∈ Finset.range bigCol.cols, matrix_get bigCol 0 k * matrix_get bigRow k 0) := by
  refine ⟨⟨rfl, dblTenthSq, dblTenth_squared, ?_⟩, bigCol_wf, bigRow_wf, rfl, ?_⟩
  · have h1 : matrix_get dblTenthSq 0 0 = F64.fin 1441151880758559 (-57) := by decide
    have h2 : matrix_get dblTenth 0 0 = F64.fin 3602879701896397 (-55) := by decide
    have hc : dblTenth.cols = 1 := rfl
    rw [hc, Finset.sum_range_one, h1, h2]
    simp only [F64.toRat]
    norm_num
  · obtain ⟨C, hC, _, _, hlen⟩ := matrix_multiply_shape bigCol bigRow rfl
    have hz := big_product_reads_zero bigCol bigRow C rfl rfl rfl hC
    have hlen0 : C.data.length = 0 := by
      rw [hlen]
      show 4294967296 * 4294967296 % SIZE_MODULUS = 0
      decide
    refine ⟨C, hC, hlen0, ?_⟩
    have hc : bigCol.cols = 1 := rfl
    rw [hz.2.2 0 0, hc, Finset.sum_range_one, bigCol_get 0 (by decide),
      bigRow_get 0 (by decide)]
    norm_num

/-- C4, as amended: for a well-formed `m x n` matrix `A` of finite doubles
(no NaN, no infinity) and identity matrices `I_n`, `I_m` of sizes `n` and `m`,
both `matrix_multiply(A, I_n)` and `matrix_multiply(I_m, A)` succeed and
return `A`: same shape, every entry equal as a double. -/
theorem C4_multiply_identity_finite (A In Im : Matrix F64) (hA : A.WF)
    (hfin : FiniteEntries A) (hn : IsIdentity A.cols In) (hm : IsIdentity A.rows Im) :
    (∃ C : Matrix F64, matrix_multiply (some A) (some In) = some C ∧
      C.rows = A.rows ∧ C.cols = A.cols ∧
      (∀ i j, i < A.rows → j < A.cols → matrix_get C i j = matrix_get A i j) ∧ C = A) ∧
    (∃ C : Matrix F64, matrix_multiply (some Im) (some A) = some C ∧
      C.rows = A.rows ∧ C.cols = A.cols ∧
      (∀ i j, i < A.rows → j < A.cols → matrix_get C i j = matrix_get A i j) ∧ C = A) := by
  obtain ⟨C, hC, hF, hget⟩ := multiply_identity_right_doubles A In hA.2.2.2 hfin hn
  obtain ⟨D, hD, hG, hget2⟩ := multiply_identity_left_doubles A Im hA.2.2.2 hfin hm
  exact ⟨⟨C, hC, hF.1, hF.2.1, hget, fits_ext hF hA.fits hget⟩,
    ⟨D, hD, hG.1, hG.2.1, hget2, fits_ext hG hA.fits hget2⟩⟩

set_option maxRecDepth 100000 in
/-- Witness of C4 (amended) on the transition matrix of `demo_markov`, in
doubles. -/
theorem C4_multiply_identity_finite_witness :
    (dblM.WF ∧ FiniteEntries dblM ∧ IsIdentity dblM.cols dblI2 ∧
      IsIdentity dblM.rows dblI2) ∧
    (∃ C : Matrix F64, matrix_multiply (some dblM) (some dblI2) = some C ∧
      C.rows = dblM.rows ∧ C.cols = dblM.cols ∧
      (∀ i j, i < dblM.rows → j < dblM.cols → matrix_get C i j = matrix_get dblM i j) ∧
      C = dblM) ∧
    (∃ C : Matrix F64, matrix_multiply (some dblI2) (some dblM) = some C ∧
      C.rows = dblM.rows ∧ C.cols = dblM.cols ∧
      (∀ i j, i < dblM.rows → j < dblM.cols → matrix_get C i j = matrix_get dblM i j) ∧
      C = dblM) :=
  ⟨⟨by decide, by decide, by decide, by decide⟩,
    C4_multiply_identity_finite dblM dblI2 dblI2 (by decide) (by decide) (by decide)
      (by decide)⟩

set_option maxRecDepth 100000 in
/-- C4 as stated fails: for `A = [[inf, 1], [2, 3]]` the products with the
`2 x 2` identity are `[[inf, NaN], [2, 3]]` on the right and
`[[inf, 1], [NaN, 3]]` on the left, because `inf * 0.0` is NaN. -/
theorem C4_multiply_identity_counterexample :
    dblInfA.WF ∧ IsIdentity dblInfA.cols dblI2 ∧ IsIdentity dblInfA.rows dblI2 ∧
    matrix_multiply (some dblInfA) (some dblI2) = some dblInfRight ∧
    matrix_multiply (some dblI2) (some dblInfA) = some dblInfLeft ∧
    matrix_get dblInfRight 0 1 ≠ matrix_get dblInfA 0 1 ∧
    matrix_get dblInfLeft 1 0 ≠ matrix_get dblInfA 1 0 :=
  ⟨by decide, by decide, by decide, dblInfA_times_identity.1, dblInfA_times_identity.2,
    by decide, by decide⟩

/-- C6 as stated fails twice. With `M = [[1]]`, `k1 = UINT_MAX = 4294967295`
and `k2 = 1`, the product of the two powers is `[[1]]`, while the
`unsigned int` exponent `k1 + k2` wraps to `0` and `markov_power` returns
`NULL`. And in doubles, for the demo matrix `[[0.9, 0.1], [0.5, 0.5]]` with
`k1 = 2`, `k2 = 1`, the third power is computed as `M * (M * M)` and the
product as `(M * M) * M`, which differ in the last place of entry `(1, 1)`. -/
theorem C6_semigroup_counterexample :
    (unit1.WF ∧ unit1.rows = unit1.cols ∧ 1 ≤ 4294967295 ∧ 4294967295 < UINT_MODULUS ∧
      matrix_multiply (markov_power (some unit1) 4294967295) (markov_power (some unit1) 1)
        = some unit1 ∧
      markov_power (some unit1) (4294967295 + 1) = none) ∧
    (dblM.WF ∧ dblM.rows = dblM.cols ∧ FiniteEntries dblM ∧
      markov_power (some dblM) (2 + 1) = some dblM3 ∧
      matrix_multiply (markov_power (some dblM) 2) (markov_power (some dblM) 1)
        = some dblM2M1 ∧
      matrix_get dblM3 1 1 ≠ matrix_get dblM2M1 1 1) := by
  refine ⟨⟨by decide, by decide, by decide, by decide, ?_, by decide⟩,
    by decide, by decide, by decide, dblM_power_three, ?_, by decide⟩
  · have hU : Fits 1 1 unit1 := by decide
    have h11 : (1 : Nat) * 1 < SIZE_MODULUS := by decide
    have hrows : unit1.rows = 1 := rfl
    have hcols : unit1.cols = 1 := rfl
    obtain ⟨R, hR, hRF, hRm⟩ :=
      power_mul_power unit1 hrows hcols h11 4294967295 1 (by decide) (by decide)
        (by decide) (by decide)
    rw [hR, toMat_ext hRF hU (by rw [hRm, toMat_unit1, one_pow])]
  · rw [dblM_power_two, dblM_power_one, dblM2_mul_dblM]

/-- C7, as amended: for a well-formed square matrix `M` of finite doubles (no
NaN, no infinity), `markov_power(M, 1)` succeeds and returns a matrix with the
dimensions of `M` and every entry equal to the corresponding entry of `M`: a
copy of `M`. -/
theorem C7_markov_power_one_finite (M : Matrix F64) (hM : M.WF) (hsq : M.rows = M.cols)
    (hfin : FiniteEntries M) :
    ∃ R : Matrix F64, markov_power (some M) 1 = some R ∧
      R.rows = M.rows ∧ R.cols = M.cols ∧
      (∀ i j, i < M.rows → j < M.cols → matrix_get R i j = matrix_get M i j) ∧
      R = M :=
  ⟨M, power_one_doubles M hM hsq hfin, rfl, rfl, fun _ _ _ _ => rfl, rfl⟩

/-- Witness of C7 (amended) on the transition matrix of `demo_markov`, in
doubles. -/
theorem C7_markov_power_one_finite_witness :
    (dblM.WF ∧ dblM.rows = dblM.cols ∧ FiniteEntries dblM) ∧
    ∃ R : Matrix F64, markov_power (some dblM) 1 = some R ∧
      R.rows = dblM.rows ∧ R.cols = dblM.cols ∧
      (∀ i j, i < dblM.rows → j < dblM.cols → matrix_get R i j = matrix_get dblM i j) ∧
      R = dblM :=
  ⟨⟨by decide, by decide, by decide⟩,
    C7_markov_power_one_finite dblM (by decide) (by decide) (by decide)⟩

/-- C7 as stated fails: for `M = [[inf, 1], [2, 3]]`, `markov_power(M, 1)`
computes `I * M` and returns `[[inf, 1], [NaN, 3]]`, whose entry `(1, 0)` is
`0.0 * inf + 1.0 * 2.0 = NaN`, not `2`. -/
theorem C7_markov_power_one_counterexample :
    dblInfA.WF ∧ dblInfA.rows = dblInfA.cols ∧
    markov_power (some dblInfA) 1 = some dblInfLeft ∧
    matrix_get dblInfLeft 1 0 ≠ matrix_get dblInfA 1 0 :=
  ⟨by decide, by decide, dblInfA_power_one, by decide⟩

/-- C8, as amended: for every well-formed matrix `M` of any shape and every
tolerance `eps`, `markov_is_chain(M, eps)` returns `1` exactly when in every
row `i` no entry satisfies `M[i][j] < -eps` and the row sum `s_i`, accumulated
from `0.0` left to right in the arithmetic of the entries, does not satisfy
`fabs(s_i - 1.0) > eps`; it returns `0` otherwise, and `0` for a `NULL`
matrix. Every entry the loops read lies inside the buffer. -/
theorem C8_is_chain_as_computed [Zero α] [One α] [Add α] [Sub α] [Neg α] [LT α]
    [DecidableRel ((· < ·) : α → α → Prop)] [Fabs α] (M : Matrix α) (eps : α)
    (hM : M.WF) :
    (markov_is_chain (some M) eps = 1 ↔
      ∀ i, i < M.rows →
        (∀ j, j < M.cols → ¬ matrix_get M i j < -eps) ∧
        ¬ fabs ((List.range M.cols).foldl (fun s j => s + matrix_get M i j) 0 - 1) > eps) ∧
    (markov_is_chain (some M) eps = 1 ∨ markov_is_chain (some M) eps = 0) ∧
    markov_is_chain (none : Option (Matrix α)) eps = 0 ∧
    (∀ i j, i < M.rows → j < M.cols → index_of M i j < M.data.length) :=
  ⟨is_chain_passes_iff M eps, is_chain_zero_or_one M eps, rfl,
    fun _ _ hi hj => hM.fits.index_lt hi hj⟩

set_option maxRecDepth 100000 in
/-- Witness of C8 (amended) on the transition matrix of `demo_markov`, in
doubles, with its tolerance `1e-9`: the check returns `1`. -/
theorem C8_is_chain_as_computed_witness :
    dblM.WF ∧ markov_is_chain (some dblM) dbl_eps = 1 ∧
    ∀ i, i < dblM.rows →
      (∀ j, j < dblM.cols → ¬ matrix_get dblM i j < -dbl_eps) ∧
      ¬ fabs ((List.range dblM.cols).foldl (fun s j => s + matrix_get dblM i j) 0 - 1) >
        dbl_eps :=
  ⟨by decide, by decide,
    (C8_is_chain_as_computed dblM dbl_eps (by decide)).1.mp (by decide)⟩

/-- C8 as stated fails twice in doubles. On `[[NaN, 0]]` with `eps = 1e-9`
the check returns `1` although the entry `NaN` is not `>= -eps`: every
comparison with NaN is false. On `[[1, 2^-53, 2^-53]]` with `eps = 0` it
returns `1` although the row sums to `1 + 2^-52`: the accumulator stays at
`1`. -/
theorem C8_is_chain_counterexample :
    (0 < dblNaNRow.rows ∧ 0 < dblNaNRow.cols ∧
      markov_is_chain (some dblNaNRow) dbl_eps = 1 ∧
      ¬ matrix_get dblNaNRow 0 0 ≥ -dbl_eps) ∧
    (0 < dblTinyRow.rows ∧ markov_is_chain (some dblTinyRow) 0 = 1 ∧
      ¬ |(∑ j ∈ Finset.range dblTinyRow.cols, F64.toRat (matrix_get dblTinyRow 0 j)) - 1| ≤
        F64.toRat 0) := by
  refine ⟨⟨by decide, by decide, dblNaNRow_is_chain, by decide⟩,
    by decide, dblTinyRow_is_chain, ?_⟩
  have h0 : matrix_get dblTinyRow 0 0 = F64.fin 1 0 := by decide
  have h1 : matrix_get dblTinyRow 0 1 = F64.fin 1 (-53) := by decide
  have h2 : matrix_get dblTinyRow 0 2 = F64.fin 1 (-53) := by decide
  have hz : (0 : F64) = F64.fin 0 0 := rfl
  have hc : dblTinyRow.cols = 3 := rfl
  rw [hc, Finset.sum_range_succ, Finset.sum_range_succ, Finset.sum_range_one, h0, h1, h2, hz]
  simp only [F64.toRat]
  norm_num

/-- C9 as stated fails in doubles: every row of the `4 x 4` matrix with rows
`[1 - 2^-53, 3 * 2^-56, 3 * 2^-56, 2^-55]` is non-negative and sums to exactly
`1`, but the accumulator of the code stays at `1 - 2^-53` and
`markov_is_chain` returns `0` for `eps = 0`. -/
theorem C9_stochastic_counterexample :
    dblStoch4.rows = dblStoch4.cols ∧ FiniteEntries dblStoch4 ∧
    (∀ i, i < dblStoch4.rows → ∀ j, j < dblStoch4.cols →
      (0 : F64) ≤ matrix_get dblStoch4 i j) ∧
    (∀ i, i < dblStoch4.rows →
      ∑ j ∈ Finset.range dblStoch4.cols, F64.toRat (matrix_get dblStoch4 i j) = 1) ∧
    (0 : F64) ≤ 0 ∧
    markov_is_chain (some dblStoch4) 0 = 0 := by
  refine ⟨by decide, by decide, by decide, ?_, by decide, dblStoch4_not_chain⟩
  intro i hi
  have hc : dblStoch4.cols = 4 := rfl
  obtain ⟨h0, h1, h2, h3⟩ := dblStoch4_rows i hi
  rw [hc, Finset.sum_range_succ, Finset.sum_range_succ, Finset.sum_range_succ,
    Finset.sum_range_one, h0, h1, h2, h3]
  simp only [F64.toRat]
  norm_num

/-- C10 as stated fails in doubles: for `M = [[1.0]]`, `eps = 0` and
`delta = 2^-60` (so `|delta| > eps`), the sum `1.0 + delta` rounds to `1.0`,
the matrix after `matrix_set` is `M` again, and `markov_is_chain` still
returns `1`. -/
theorem C10_perturbation_counterexample :
    dblOne.WF ∧ dblOne.rows = dblOne.cols ∧
    (∀ i, i < dblOne.rows → ∀ j, j < dblOne.cols → (0 : F64) ≤ matrix_get dblOne i j) ∧
    (∀ i, i < dblOne.rows →
      ∑ j ∈ Finset.range dblOne.cols, F64.toRat (matrix_get dblOne i j) = 1) ∧
    (0 : F64) ≤ 0 ∧ 0 < dblOne.rows ∧ 0 < dblOne.cols ∧
    fabs dbl_tiny > (0 : F64) ∧
    matrix_set dblOne 0 0 (matrix_get dblOne 0 0 + dbl_tiny) = dblOne ∧
    markov_is_chain (some (matrix_set dblOne 0 0 (matrix_get dblOne 0 0 + dbl_tiny))) 0 = 1 ∧
    markov_is_chain (some dblOne) 0 = 1 := by
  refine ⟨by decide, by decide, by decide, ?_, by decide, by decide, by decide, by decide,
    dblOne_absorbs, ?_, dblOne_is_chain⟩
  · intro i hi
    have hi0 : i = 0 := by
      have : i < 1 := hi
      omega
    subst hi0
    have h0 : matrix_get dblOne 0 0 = F64.fin 1 0 := by decide
    have hc : dblOne.cols = 1 := rfl
    rw [hc, Finset.sum_range_one, h0]
    simp only [F64.toRat]
    norm_num
  · rw [dblOne_absorbs]
    exact dblOne_is_chain

/-- C13 fails on the code: `matrix_create(2^32, 2^32)` computes the element
count `rows * cols` in `size_t`, where it wraps to `0`, and returns a matrix
that records `2^32` rows and `2^32` columns over an empty buffer; every
position `(i, j)` with `i < rows`, `j < cols` has its offset outside the
buffer, so no entry can be read as `0.0`. -/
theorem C13_matrix_create_overflow :
    4294967296 * 4294967296 % SIZE_MODULUS = 0 ∧
    ∃ m : Matrix F64, matrix_create 4294967296 4294967296 = some m ∧
      m.rows = 4294967296 ∧ m.cols = 4294967296 ∧ m.data = [] ∧
      ∀ i j, i < m.rows → j < m.cols → ¬ index_of m i j < m.data.length := by
  have hcount : 4294967296 * 4294967296 % SIZE_MODULUS = 0 := by decide
  have hdata : List.replicate (4294967296 * 4294967296 % SIZE_MODULUS) (0 : F64) = [] := by
    rw [hcount]
    rfl
  refine ⟨hcount, _, rfl, rfl, rfl, hdata, ?_⟩
  intro i j _ _
  show ¬ _ < (List.replicate (4294967296 * 4294967296 % SIZE_MODULUS) (0 : F64)).length
  rw [hdata]
  exact Nat.not_lt_zero _

/-- C17 fails on the code: the `2^32 x 1` column of ones and the `1 x 2^32`
row `(1, 0, ..., 0)` are well-formed, non-negative and row-stochastic, but the
element count `2^32 * 2^32` of their product wraps to `0` in `size_t`:
`matrix_multiply` allocates no element and its first write, at offset `0`, is
outside the buffer. With such writes dropped, as here, the returned matrix
reads `0` everywhere and is not row-stochastic. -/
theorem C17_stochastic_overflow :
    bigCol.WF ∧ unitRow.WF ∧ bigCol.cols = unitRow.rows ∧
    (NonNegative bigCol ∧ RowStochastic bigCol) ∧
    (NonNegative unitRow ∧ RowStochastic unitRow) ∧
    (∃ C0 : Matrix ℚ, matrix_create bigCol.rows unitRow.cols = some C0 ∧
      C0.data.length = 0 ∧ ¬ index_of C0 0 0 < C0.data.length) ∧
    ∃ C : Matrix ℚ, matrix_multiply (some bigCol) (some unitRow) = some C ∧
      0 < C.rows ∧ ∑ j ∈ Finset.range C.cols, matrix_get C 0 j = 0 ∧
      ¬ RowStochastic C := by
  refine ⟨bigCol_wf, unitRow_wf, rfl, bigCol_stochastic, unitRow_stochastic,
    big_product_buffer ℚ, ?_⟩
  obtain ⟨C, hC, _⟩ := matrix_multiply_shape bigCol unitRow rfl
  have hz := big_product_reads_zero bigCol unitRow C rfl rfl rfl hC
  have hpos : 0 < C.rows := by
    rw [hz.1]
    decide
  have hsum : ∑ j ∈ Finset.range C.cols, matrix_get C 0 j = 0 :=
    Finset.sum_eq_zero (fun j _ => hz.2.2 0 j)
  refine ⟨C, hC, hpos, hsum, ?_⟩
  intro hrs
  have h1 := hrs 0 hpos
  rw [hsum] at h1
  exact zero_ne_one h1

/-- C18 fails on the code: for the well-formed `2^32 x 1` column `A` of ones,
the `1 x 2^32` row `B` of ones and `C = A`, the element count `2^32 * 2^32` of
`A * B` wraps to `0` in `size_t`: `matrix_multiply(A, B)` allocates no
element and its first write, at offset `0`, is outside the buffer. With such
writes dropped, as here, `(A * B) * C` has entry `(0, 0)` equal to `0`, while
`A * (B * C)` has `2^32` there. -/
theorem C18_associative_overflow :
    bigCol.WF ∧ bigRow.WF ∧ bigCol.cols = bigRow.rows ∧ bigRow.cols = bigCol.rows ∧
    (∃ C0 : Matrix ℚ, matrix_create bigCol.rows bigRow.cols = some C0 ∧
      C0.data.length = 0 ∧ ¬ index_of C0 0 0 < C0.data.length) ∧
    ∃ L R : Matrix ℚ,
      matrix_multiply (matrix_multiply (some bigCol) (some bigRow)) (some bigCol) = some L ∧
      matrix_multiply (some bigCol) (matrix_multiply (some bigRow) (some bigCol)) = some R ∧
      matrix_get L 0 0 = 0 ∧ matrix_get R 0 0 = 4294967296 := by
  refine ⟨bigCol_wf, bigRow_wf, rfl, rfl, big_product_buffer ℚ, ?_⟩
  obtain ⟨P, hP, _⟩ := matrix_multiply_shape bigCol bigRow rfl
  have hz := big_product_reads_zero bigCol bigRow P rfl rfl rfl hP
  have hfitL : P.rows * bigCol.cols < SIZE_MODULUS := by
    rw [hz.1]
    show 4294967296 * 1 < SIZE_MODULUS
    decide
  obtain ⟨L, hL, _, hLget⟩ := matrix_multiply_spec P bigCol hz.2.1 hfitL
  have hfitQ : bigRow.rows * bigCol.cols < SIZE_MODULUS := by
    show 1 * 1 < SIZE_MODULUS
    decide
  obtain ⟨Q, hQ, hQF, hQget⟩ := matrix_multiply_spec bigRow bigCol rfl hfitQ
  have hQr : Q.rows = 1 := hQF.1
  have hQc : Q.cols = 1 := hQF.2.1
  have hfitR : bigCol.rows * Q.cols < SIZE_MODULUS := by
    rw [hQc]
    show 4294967296 * 1 < SIZE_MODULUS
    decide
  obtain ⟨R, hR, _, hRget⟩ := matrix_multiply_spec bigCol Q hQr.symm hfitR
  refine ⟨L, R, ?_, ?_, ?_, ?_⟩
  · rw [hP, hL]
  · rw [hQ, hR]
  · rw [hLget 0 0 (by rw [hz.1]; decide) (by decide)]
    exact Finset.sum_eq_zero (fun k _ => by rw [hz.2.2 0 k, zero_mul])
  · have hq : matrix_get Q 0 0 = 4294967296 := by
      rw [hQget 0 0 (by decide) (by decide)]
      have hterm : ∀ k ∈ Finset.range bigRow.cols,
          matrix_get bigRow 0 k * matrix_get bigCol k 0 = 1 := by
        intro k hk
        have hk2 : k < 4294967296 := Finset.mem_range.mp hk
        rw [bigRow_get k hk2, bigCol_get k hk2, mul_one]
      rw [Finset.sum_congr rfl hterm, Finset.sum_const, Finset.card_range]
      show (4294967296 : Nat) • (1 : ℚ) = 4294967296
      rw [nsmul_eq_mul, mul_one]
      norm_num
    have hc : bigCol.cols = 1 := rfl
    rw [hRget 0 0 (by decide) (by rw [hQc]; decide), hc, Finset.sum_range_one,
      bigCol_get 0 (by decide), hq, one_mul]

/-- C19, as amended: for a matrix `M` with `rows = 0` (any `cols`) and every
`eps`, `markov_is_chain(M, eps)` returns `1`; for `M` with `rows ≥ 1` and
`cols = 0` and every `eps` that is not NaN it returns `1` if and only if
`eps ≥ 1` (each empty row sums to `0`), and `0` otherwise; for `eps = NaN` it
returns `1`. -/
theorem C19_degenerate_shapes_doubles (M : Matrix F64) (eps : F64) :
    (M.rows = 0 → markov_is_chain (some M) eps = 1) ∧
    (1 ≤ M.rows → M.cols = 0 → eps ≠ F64.nan →
      ((markov_is_chain (some M) eps = 1 ↔ eps ≥ 1) ∧
       (¬ eps ≥ 1 → markov_is_chain (some M) eps = 0))) ∧
    (1 ≤ M.rows → M.cols = 0 → eps = F64.nan → markov_is_chain (some M) eps = 1) := by
  refine ⟨?_, ?_, ?_⟩
  · intro h0
    rw [is_chain_passes_iff]
    intro i hi
    omega
  · intro h1 hc hne
    have hone : (1 : F64) ≠ F64.nan := by decide
    have hiff : markov_is_chain (some M) eps = 1 ↔ eps ≥ 1 := by
      rw [is_chain_passes_iff]
      constructor
      · intro h
        exact (F64.not_lt_iff_le eps 1 hne hone).mp
          ((rowPasses_no_columns M eps hc 0).mp (h 0 (by omega)))
      · intro he i _
        exact (rowPasses_no_columns M eps hc i).mpr
          ((F64.not_lt_iff_le eps 1 hne hone).mpr he)
    refine ⟨hiff, fun hlt => ?_⟩
    rcases is_chain_zero_or_one M eps with h | h
    · exact absurd (hiff.mp h) hlt
    · exact h
  · intro h1 hc hnan
    subst hnan
    rw [is_chain_passes_iff]
    intro i _
    exact (rowPasses_no_columns M F64.nan hc i).mpr (by decide)

/-- Witness of C19 (amended) on the empty matrices of shapes `0 x 3` and
`3 x 0`, with the tolerances `0`, `1` and `0.5`. -/
theorem C19_degenerate_shapes_doubles_witness :
    (dblNoRows.rows = 0 ∧ markov_is_chain (some dblNoRows) 0 = 1) ∧
    (1 ≤ dblNoCols.rows ∧ dblNoCols.cols = 0 ∧ (1 : F64) ≠ F64.nan ∧
      (markov_is_chain (some dblNoCols) 1 = 1 ↔ (1 : F64) ≥ 1)) ∧
    (dbl_0_5 ≠ F64.nan ∧ ¬ dbl_0_5 ≥ 1 ∧ markov_is_chain (some dblNoCols) dbl_0_5 = 0) :=
  ⟨⟨by decide, (C19_degenerate_shapes_doubles dblNoRows 0).1 (by decide)⟩,
    ⟨by decide, by decide, by decide,
      ((C19_degenerate_shapes_doubles dblNoCols 1).2.1 (by decide) (by decide)
        (by decide)).1⟩,
    ⟨by decide, by decide,
      ((C19_degenerate_shapes_doubles dblNoCols dbl_0_5).2.1 (by decide) (by decide)
        (by decide)).2 (by decide)⟩⟩

/-- C19 as stated fails in doubles: for `eps = NaN` and a `3 x 0` matrix the
test `fabs(0.0 - 1.0) > eps` is false and `markov_is_chain` returns `1`,
although `eps >= 1` is false. -/
theorem C19_degenerate_shapes_counterexample :
    1 ≤ dblNoCols.rows ∧ dblNoCols.cols = 0 ∧
    markov_is_chain (some dblNoCols) F64.nan = 1 ∧ ¬ F64.nan ≥ (1 : F64) :=
  ⟨by decide, by decide, dblNoCols_nan, by decide⟩

end Claims3

end Lab8
